import Mathlib

/-!
# NiceScope: spectral analysis pipeline of `FFTAudioCallback`

A shallow embedding of the curve-generation pipeline of `src/main.cpp`
(`cubicInterpolate`, `FFTAudioCallback::setWindowSize`, `FFTAudioCallback::doFFT`,
`FFTAudioCallback::process`) over an arbitrary linearly ordered field `α` with a floor
function, standing for the exact values of the `float`/`double` quantities.

The library routines the code calls but does not define are parameters:
* `log10 : α → α` for `std::log10`,
* `hypot : α → α → α` for `std::hypot`,
* `fftw_execute : List α → List (α × α)` for the execution of the FFTW plan, which
  reads `m_samples` and writes `m_spectrum`.

The local `float maxDb;` of `doFFT` is read before it is written; its starting value is
the explicit argument `maxDb0`.
-/

namespace NiceScope

/-! ## Data model -/

/-- The members of `FFTAudioCallback` (declared in `main.hpp`), vectors as lists. -/
structure FFTAudioCallback (α : Type) where
  m_cubicResolution : Nat
  m_bufferSize : Nat
  m_spectrumSize : Nat
  m_numChunks : Nat
  m_numPlotPoints : Nat
  m_writePos : Nat
  m_samples : List α
  m_spectrum : List (α × α)
  m_magnitudeSpectrum : List α
  m_maxDb : α
  m_chunkX : List α
  m_chunkY : List α
  m_plotX : List α
  m_plotY : List α
  m_binToChunk : List Int

/-- The constructor `FFTAudioCallback::FFTAudioCallback(int bufferSize)`. The in-class
initialisers of `m_cubicResolution` and `m_maxDb` live in `main.hpp`, and `m_spectrum` is
allocated without being initialised, so the three are arguments. `reserve` leaves a vector
empty. -/
def FFTAudioCallback.construct {α : Type} [LinearOrderedField α]
    (cubicResolution : Nat) (maxDb : α) (spectrum : List (α × α)) (bufferSize : Nat) :
    FFTAudioCallback α where
  m_cubicResolution := cubicResolution
  m_bufferSize := bufferSize
  m_spectrumSize := bufferSize / 2 + 1
  m_numChunks := 0
  m_numPlotPoints := 0
  m_writePos := 0
  m_samples := List.replicate bufferSize 0
  m_spectrum := spectrum
  m_magnitudeSpectrum := List.replicate (bufferSize / 2 + 1) 0
  m_maxDb := maxDb
  m_chunkX := []
  m_chunkY := []
  m_plotX := []
  m_plotY := []
  m_binToChunk := []

/-! ## Cubic interpolation -/

/-- The function `cubicInterpolate` of `main.cpp`. -/
def cubicInterpolate {α : Type} [LinearOrderedField α] (t y0 y1 y2 y3 : α) : α :=
  ((-y0 + 3 * y1 - 3 * y2 + y3) * t * t * t
    + (2 * y0 - 5 * y1 + 4 * y2 - y3) * t * t
    + (-y0 + y2) * t
    + 2 * y1) * 0.5

/-- The four control-point indices `(t0, t1, t2, t3)` computed at output index `i` by the
smoothing loops of `setWindowSize` and `doFFT`, in `int` arithmetic. -/
def smoothIndices (cubicResolution numChunks i : Nat) : Int × Int × Int × Int :=
  let t1 : Int := (i : Int) / (cubicResolution : Int)
  let t0 : Int := max (t1 - 1) 0
  let t2 : Int := min (t1 + 1) ((numChunks : Int) - 1)
  let t3 : Int := min (t1 + 2) ((numChunks : Int) - 1)
  (t0, t1, t2, t3)

/-- The sample a smoothing loop computes at output index `i` from the control values. -/
def smoothSample {α : Type} [LinearOrderedField α] (cubicResolution numChunks : Nat)
    (ctrl : List α) (i : Nat) : α :=
  let ts := smoothIndices cubicResolution numChunks i
  let x0 := ctrl.getD ts.1.toNat 0
  let x1 := ctrl.getD ts.2.1.toNat 0
  let x2 := ctrl.getD ts.2.2.1.toNat 0
  let x3 := ctrl.getD ts.2.2.2.toNat 0
  let t : α := (i : α) / (cubicResolution : α) - ((ts.2.1 : Int) : α)
  cubicInterpolate t x0 x1 x2 x3

/-- One iteration of a smoothing loop: stores the sample at index `i` of the plot vector. -/
def smoothStep {α : Type} [LinearOrderedField α] (cubicResolution numChunks : Nat)
    (ctrl : List α) (plot : List α) (i : Nat) : List α :=
  plot.set i (smoothSample cubicResolution numChunks ctrl i)

/-- The smoothing loop after `clear(); resize(numPlotPoints)`. -/
def smooth {α : Type} [LinearOrderedField α] (cubicResolution numChunks numPlotPoints : Nat)
    (ctrl : List α) : List α :=
  (List.range numPlotPoints).foldl (smoothStep cubicResolution numChunks ctrl)
    (List.replicate numPlotPoints 0)

/-! ## Perceptual mapping (`setWindowSize`) -/

/-- The method `FFTAudioCallback::fftBinToFrequency`. -/
def fftBinToFrequency {α : Type} [LinearOrderedField α] (m_spectrumSize : Nat) (fftBin : Nat) :
    α :=
  24000 * (fftBin : α) / (m_spectrumSize : α)

/-- The function `erbs` of `main.cpp`. -/
def erbs {α : Type} [LinearOrderedField α] (log10 : α → α) (frequency : α) : α :=
  21.4 * log10 (0.00437 * frequency + 1)

/-- The method `FFTAudioCallback::position`. -/
def position {α : Type} [LinearOrderedField α] (log10 : α → α) (frequency : α) : α :=
  (erbs log10 frequency - erbs log10 20) / (erbs log10 20000 - erbs log10 20)

/-- The value of `thePosition` at bin `i`. -/
def binPosition {α : Type} [LinearOrderedField α] (log10 : α → α) (m_spectrumSize : Nat)
    (i : Nat) : α :=
  position log10 (fftBinToFrequency m_spectrumSize i)

/-- The value of `nominalChunk` at bin `i` (with `chunkN = 2`). -/
def nominalChunk {α : Type} [LinearOrderedField α] [FloorRing α] (log10 : α → α)
    (m_spectrumSize : Nat) (windowWidth : Int) (i : Nat) : Int :=
  ⌊binPosition log10 m_spectrumSize i * (windowWidth : α) / 2⌋

/-- The variables of the bin loop of `setWindowSize`. The three `firstMultiChunk*` locals are
uninitialised in the source and only read once `foundMultiChunk` is set; they start at `0`. -/
structure RemapLoop (α : Type) where
  foundMultiChunk : Bool
  firstMultiChunk : Int
  firstMultiChunkOffset : Int
  firstMultiChunkPosition : α
  lastNominalChunk : Int
  m_chunkX : List α
  m_binToChunk : List Int

/-- The loop variables before the first bin: `m_chunkX.clear()`,
`m_binToChunk.clear(); m_binToChunk.resize(m_spectrumSize)`, `lastNominalChunk = -1`. -/
def remapInit {α : Type} [LinearOrderedField α] (m_spectrumSize : Nat) : RemapLoop α where
  foundMultiChunk := false
  firstMultiChunk := 0
  firstMultiChunkOffset := 0
  firstMultiChunkPosition := 0
  lastNominalChunk := -1
  m_chunkX := []
  m_binToChunk := List.replicate m_spectrumSize 0

/-- The body of the bin loop of `setWindowSize` at bin `i`. -/
def remapStep {α : Type} [LinearOrderedField α] [FloorRing α] (log10 : α → α)
    (m_spectrumSize : Nat) (windowWidth : Int) (s : RemapLoop α) (i : Nat) : RemapLoop α :=
  let thePosition := binPosition log10 m_spectrumSize i
  if thePosition > 1 then
    { s with m_binToChunk := s.m_binToChunk.set i (-1) }
  else
    let nominal := nominalChunk log10 m_spectrumSize windowWidth i
    if s.foundMultiChunk then
      let chunkIndex := s.firstMultiChunk + nominal - s.firstMultiChunkOffset
      { s with
        m_binToChunk := s.m_binToChunk.set i chunkIndex
        m_chunkX :=
          if nominal ≠ s.lastNominalChunk then s.m_chunkX ++ [thePosition] else s.m_chunkX
        lastNominalChunk := nominal }
    else if nominal = s.lastNominalChunk then
      { foundMultiChunk := true
        firstMultiChunk := (i : Int)
        firstMultiChunkOffset := nominal
        firstMultiChunkPosition := thePosition
        lastNominalChunk := nominal
        m_chunkX := s.m_chunkX ++ [thePosition]
        m_binToChunk := s.m_binToChunk.set i (i : Int) }
    else
      { s with
        m_binToChunk := s.m_binToChunk.set i (i : Int)
        m_chunkX := s.m_chunkX ++ [thePosition]
        lastNominalChunk := nominal }

/-- The bin loop of `setWindowSize` run over the bins `0 .. k-1`. -/
def remapLoop {α : Type} [LinearOrderedField α] [FloorRing α] (log10 : α → α)
    (m_spectrumSize : Nat) (windowWidth : Int) (k : Nat) : RemapLoop α :=
  (List.range k).foldl (remapStep log10 m_spectrumSize windowWidth) (remapInit m_spectrumSize)

/-- The method `FFTAudioCallback::setWindowSize`. -/
def setWindowSize {α : Type} [LinearOrderedField α] [FloorRing α] (log10 : α → α)
    (st : FFTAudioCallback α) (windowWidth _windowHeight : Int) : FFTAudioCallback α :=
  let s := remapLoop log10 st.m_spectrumSize windowWidth st.m_spectrumSize
  let numChunks := s.m_chunkX.length
  let numPlotPoints := numChunks * st.m_cubicResolution
  { st with
    m_chunkX := s.m_chunkX
    m_binToChunk := s.m_binToChunk
    m_numChunks := numChunks
    m_numPlotPoints := numPlotPoints
    m_plotX := smooth st.m_cubicResolution numChunks numPlotPoints s.m_chunkX }

/-- The table entry the bin loop stores for bin `i`, in terms of the final values of
`foundMultiChunk`, `firstMultiChunk` and `firstMultiChunkOffset`. -/
def binEntry {α : Type} [LinearOrderedField α] [FloorRing α] (log10 : α → α) (n : Nat)
    (w : Int) (s : RemapLoop α) (i : Nat) : Int :=
  if binPosition log10 n i > 1 then -1
  else if s.foundMultiChunk = true ∧ s.firstMultiChunk < (i : Int) then
    s.firstMultiChunk + nominalChunk log10 n w i - s.firstMultiChunkOffset
  else (i : Int)

/-- The loop invariant of the bin loop of `setWindowSize` after `k` bins. -/
structure RemapInv {α : Type} [LinearOrderedField α] [FloorRing α] (log10 : α → α) (n : Nat)
    (w : Int) (k : Nat) (s : RemapLoop α) : Prop where
  length_eq : s.m_binToChunk.length = n
  anchor : s.foundMultiChunk = true → ∃ f : Nat, f < k ∧ s.firstMultiChunk = (f : Int) ∧
    s.firstMultiChunkOffset = nominalChunk log10 n w f ∧ binPosition log10 n f ≤ 1
  entries : ∀ i, i < k → s.m_binToChunk[i]? = some (binEntry log10 n w s i)

/-- A second loop invariant of the bin loop of `setWindowSize` after `k` bins, for the
widths at which the nominal chunk of bin 0 is not `-1`: the chunk indices stored so far are
exactly the indices below the number of chunks opened so far. -/
structure ChunkInv {α : Type} [LinearOrderedField α] [FloorRing α] (log10 : α → α) (n : Nat)
    (w : Int) (k : Nat) (s : RemapLoop α) : Prop where
  stored_lt : ∀ (i : Nat) (a : Int), i < k → s.m_binToChunk[i]? = some a → a ≠ -1 →
    0 ≤ a ∧ a < (s.m_chunkX.length : Int)
  stored_all : ∀ c : Nat, c < s.m_chunkX.length →
    ∃ i : Nat, i < k ∧ s.m_binToChunk[i]? = some (c : Int)
  one_each : s.foundMultiChunk = false → (∀ i, i < k → binPosition log10 n i ≤ 1) →
    s.m_chunkX.length = k
  last_start : k = 0 → s.lastNominalChunk = -1
  last_eq : ∀ j : Nat, k = j + 1 → binPosition log10 n j ≤ 1 →
    s.lastNominalChunk = nominalChunk log10 n w j
  anchored : s.foundMultiChunk = true → ∃ f : Nat, 1 ≤ f ∧ f < k ∧
    s.firstMultiChunk = (f : Int) ∧ s.firstMultiChunkOffset = nominalChunk log10 n w f ∧
    nominalChunk log10 n w f = nominalChunk log10 n w (f - 1) ∧
    (∀ j : Nat, k = j + 1 → binPosition log10 n j ≤ 1 →
      (s.m_chunkX.length : Int) =
        (f : Int) + 1 + (nominalChunk log10 n w j - nominalChunk log10 n w f))

/-! ## Frame processing (`doFFT`) -/

/-- The value `db` of the magnitude loop of `doFFT` at bin `i`. -/
def decibels {α : Type} [LinearOrderedField α] (log10 : α → α) (hypot : α → α → α)
    (m_spectrum : List (α × α)) (i : Nat) : α :=
  let real := (m_spectrum.getD i (0, 0)).1
  let imag := (m_spectrum.getD i (0, 0)).2
  let magnitude := hypot real imag
  20 * log10 magnitude

/-- The body of the magnitude loop of `doFFT`: the pair is (`maxDb`, `m_magnitudeSpectrum`). -/
def magnitudeStep {α : Type} [LinearOrderedField α] (log10 : α → α) (hypot : α → α → α)
    (m_spectrum : List (α × α)) (s : α × List α) (i : Nat) : α × List α :=
  let db := decibels log10 hypot m_spectrum i
  (if db > s.1 then db else s.1, s.2.set i db)

/-- The body of the normalisation loop of `doFFT`. -/
def normalizeStep {α : Type} [LinearOrderedField α] (m_maxDb : α) (mags : List α) (i : Nat) :
    List α :=
  mags.set i ((mags.getD i 0 - m_maxDb) / 60 + 1)

/-- The aggregation loop of `doFFT` over the remaining bins: the first bin whose chunk index
is negative or not below `m_chunkY.size()` leaves the loop (`break`). -/
def aggregateLoop {α : Type} [LinearOrderedField α] (m_binToChunk : List Int)
    (m_magnitudeSpectrum : List α) : List Nat → List α → List α
  | [], m_chunkY => m_chunkY
  | i :: rest, m_chunkY =>
    let chunk := m_binToChunk.getD i 0
    if chunk < 0 ∨ chunk ≥ (m_chunkY.length : Int) then
      m_chunkY
    else
      aggregateLoop m_binToChunk m_magnitudeSpectrum rest
        (m_chunkY.set chunk.toNat
          (max (m_chunkY.getD chunk.toNat 0) (m_magnitudeSpectrum.getD i 0)))

/-- Aggregation as the specification words it, for comparison with `aggregateLoop`: a bin
whose chunk index is out of bounds is skipped and the bins after it are still folded in. -/
def aggregateSkip {α : Type} [LinearOrderedField α] (m_binToChunk : List Int)
    (m_magnitudeSpectrum : List α) : List Nat → List α → List α
  | [], m_chunkY => m_chunkY
  | i :: rest, m_chunkY =>
    let chunk := m_binToChunk.getD i 0
    if chunk < 0 ∨ chunk ≥ (m_chunkY.length : Int) then
      aggregateSkip m_binToChunk m_magnitudeSpectrum rest m_chunkY
    else
      aggregateSkip m_binToChunk m_magnitudeSpectrum rest
        (m_chunkY.set chunk.toNat
          (max (m_chunkY.getD chunk.toNat 0) (m_magnitudeSpectrum.getD i 0)))

/-- Whether the chunk index of bin `i` passes the bound check of the aggregation loop for a
chunk vector of `numChunks` entries. -/
def chunkInBounds (m_binToChunk : List Int) (numChunks : Nat) (i : Nat) : Bool :=
  decide (¬ (m_binToChunk.getD i 0 < 0 ∨ m_binToChunk.getD i 0 ≥ (numChunks : Int)))

/-- The method `FFTAudioCallback::doFFT`; `maxDb0` is the value the uninitialised local
`maxDb` happens to hold. -/
def doFFT {α : Type} [LinearOrderedField α] (log10 : α → α) (hypot : α → α → α)
    (fftw_execute : List α → List (α × α)) (st : FFTAudioCallback α) (maxDb0 : α) :
    FFTAudioCallback α :=
  if st.m_numPlotPoints = 0 then
    st
  else
    let spectrum := fftw_execute st.m_samples
    let scan := (List.range st.m_spectrumSize).foldl (magnitudeStep log10 hypot spectrum)
      (maxDb0, st.m_magnitudeSpectrum)
    let maxDb := scan.1
    let ceiling := if maxDb > st.m_maxDb then maxDb else st.m_maxDb
    let normalized := (List.range st.m_spectrumSize).foldl (normalizeStep ceiling) scan.2
    let chunkY := aggregateLoop st.m_binToChunk normalized (List.range st.m_spectrumSize)
      (List.replicate st.m_numChunks 0)
    { st with
      m_spectrum := spectrum
      m_magnitudeSpectrum := normalized
      m_maxDb := ceiling
      m_chunkY := chunkY
      m_plotY := smooth st.m_cubicResolution st.m_numChunks st.m_numPlotPoints chunkY }

/-- The two-point real-input transform, which is what the FFTW plan computes for a buffer
of two samples: `X0 = x0 + x1`, `X1 = x0 - x1`, both with imaginary part 0. -/
def dft2 {α : Type} [LinearOrderedField α] (m_samples : List α) : List (α × α) :=
  [(m_samples.getD 0 0 + m_samples.getD 1 0, 0), (m_samples.getD 0 0 - m_samples.getD 1 0, 0)]

/-- A pipeline of buffer size 2 (two bins) with `cubicResolution = 4` and gain ceiling
`maxDb`, after `setWindowSize(640, 480)`, whose buffer holds the impulse `1, 0`. -/
def impulsePipeline {α : Type} [LinearOrderedField α] [FloorRing α] (log10 : α → α)
    (maxDb : α) : FFTAudioCallback α :=
  { setWindowSize log10 (FFTAudioCallback.construct 4 maxDb [] 2) 640 480 with
    m_samples := [1, 0] }

/-! ## Sample accumulation (`process`) -/

/-- What one iteration of `process` does, for the record kept by `processTraced`. -/
inductive Event (α : Type) where
  | write (pos : Nat) (sample : α)
  | windowComplete

/-- Whether an event is a `doFFT` call. -/
def Event.isWindowComplete {α : Type} : Event α → Bool
  | Event.write _ _ => false
  | Event.windowComplete => true

/-- The events of one iteration of `process` that starts with the write cursor at `pos` in a
buffer of `m_bufferSize` samples. -/
def iterationEvents {α : Type} (m_bufferSize pos : Nat) (sample : α) : List (Event α) :=
  if pos + 1 = m_bufferSize then [Event.write pos sample, Event.windowComplete]
  else [Event.write pos sample]

/-- The sample buffer after the writes of a record of events, in order. -/
def replayWrites {α : Type} (m_samples : List α) (events : List (Event α)) : List α :=
  events.foldl (fun samples e =>
    match e with
    | Event.write pos sample => samples.set pos sample
    | Event.windowComplete => samples) m_samples

/-- The body of the loop of `FFTAudioCallback::process` at sample `i`; `input` is
`input_buffer[0]`, `junk i` the value of the uninitialised `maxDb` should `doFFT` run in this
iteration. The second component records the writes and the `doFFT` calls in order. -/
def processStep {α : Type} [LinearOrderedField α] (log10 : α → α) (hypot : α → α → α)
    (fftw_execute : List α → List (α × α)) (input : Nat → α) (junk : Nat → α)
    (s : FFTAudioCallback α × List (Event α)) (i : Nat) :
    FFTAudioCallback α × List (Event α) :=
  let st := s.1
  let st1 := { st with
    m_samples := st.m_samples.set st.m_writePos (input i)
    m_writePos := st.m_writePos + 1 }
  let log1 := s.2 ++ [Event.write st.m_writePos (input i)]
  if st1.m_writePos = st1.m_bufferSize then
    ({ doFFT log10 hypot fftw_execute st1 (junk i) with m_writePos := 0 },
      log1 ++ [Event.windowComplete])
  else
    (st1, log1)

/-- The loop of `FFTAudioCallback::process` together with the record of what it did. -/
def processTraced {α : Type} [LinearOrderedField α] (log10 : α → α) (hypot : α → α → α)
    (fftw_execute : List α → List (α × α)) (st : FFTAudioCallback α) (input : Nat → α)
    (frame_count : Nat) (junk : Nat → α) : FFTAudioCallback α × List (Event α) :=
  (List.range frame_count).foldl (processStep log10 hypot fftw_execute input junk) (st, [])

/-- The method `FFTAudioCallback::process`. -/
def process {α : Type} [LinearOrderedField α] (log10 : α → α) (hypot : α → α → α)
    (fftw_execute : List α → List (α × α)) (st : FFTAudioCallback α) (input : Nat → α)
    (frame_count : Nat) (junk : Nat → α) : FFTAudioCallback α :=
  (processTraced log10 hypot fftw_execute st input frame_count junk).1

/-- A call of one of the three public entry points of the pipeline. -/
inductive Call (α : Type) where
  | doFFT (maxDb0 : α)
  | setWindowSize (windowWidth windowHeight : Int)
  | process (input : Nat → α) (frame_count : Nat) (junk : Nat → α)

/-- The pipeline state after a sequence of calls. -/
def runCalls {α : Type} [LinearOrderedField α] [FloorRing α] (log10 : α → α)
    (hypot : α → α → α) (fftw_execute : List α → List (α × α)) :
    FFTAudioCallback α → List (Call α) → FFTAudioCallback α
  | st, [] => st
  | st, Call.doFFT maxDb0 :: rest =>
    runCalls log10 hypot fftw_execute (doFFT log10 hypot fftw_execute st maxDb0) rest
  | st, Call.setWindowSize w h :: rest =>
    runCalls log10 hypot fftw_execute (setWindowSize log10 st w h) rest
  | st, Call.process input n junk :: rest =>
    runCalls log10 hypot fftw_execute (process log10 hypot fftw_execute st input n junk) rest

/-! ## Loops that fill a vector index by index -/

section Fill

theorem foldl_set_range_length {β : Type} (f : List β → Nat → β) (k : Nat) (l : List β) :
    ((List.range k).foldl (fun acc i => acc.set i (f acc i)) l).length = l.length := by
  induction k with
  | zero => simp
  | succ k ih => simp [List.range_succ, List.foldl_append, ih]

/-- A loop `for i < k: v[i] = g(v[i], i)` leaves `g(l[i], i)` at every index `i < k` of the
starting vector `l` and the other entries untouched. -/
theorem foldl_set_range_getElem? {β : Type} (d : β) (g : β → Nat → β) (k : Nat) (l : List β)
    (i : Nat) :
    ((List.range k).foldl (fun acc j => acc.set j (g (acc.getD j d) j)) l)[i]? =
      if i < k then (l[i]?).map (fun v => g v i) else l[i]? := by
  induction k with
  | zero => simp
  | succ k ih =>
    simp only [List.range_succ, List.foldl_append, List.foldl_cons, List.foldl_nil]
    generalize hacc : (List.range k).foldl (fun acc j => acc.set j (g (acc.getD j d) j)) l = acc
      at ih
    have hlen : acc.length = l.length := by
      rw [← hacc]
      exact foldl_set_range_length (fun acc j => g (acc.getD j d) j) k l
    by_cases hik : i = k
    · subst hik
      have ih' : acc[i]? = l[i]? := by simpa using ih
      by_cases hil : i < l.length
      · rw [List.getElem?_set_self (by omega)]
        simp [List.getD_eq_getElem?_getD, ih', List.getElem?_eq_getElem hil]
      · have h1 : l[i]? = none := List.getElem?_eq_none (by omega)
        have h2 : (acc.set i (g (acc.getD i d) i))[i]? = none :=
          List.getElem?_eq_none (by simp; omega)
        rw [h2]
        simp [h1]
    · rw [List.getElem?_set_ne (Ne.symm hik), ih]
      by_cases h : i < k
      · simp [h, Nat.lt_succ_of_lt h]
      · have : ¬ i < k + 1 := by omega
        simp [h, this]

end Fill

/-! ## Properties of the curve smoother -/

section Smooth

variable {α : Type} [LinearOrderedField α]

theorem cubicInterpolate_zero (y0 y1 y2 y3 : α) : cubicInterpolate 0 y0 y1 y2 y3 = y1 := by
  unfold cubicInterpolate
  norm_num
  ring

theorem smooth_length (R M n : Nat) (ctrl : List α) : (smooth R M n ctrl).length = n := by
  unfold smooth
  have h := foldl_set_range_length (fun (_ : List α) i => smoothSample R M ctrl i) n
    (List.replicate n 0)
  simpa [smoothStep] using h

theorem smooth_getElem? (R M n : Nat) (ctrl : List α) (i : Nat) (hi : i < n) :
    (smooth R M n ctrl)[i]? = some (smoothSample R M ctrl i) := by
  unfold smooth
  have h := foldl_set_range_getElem? (0 : α) (fun _ j => smoothSample R M ctrl j) n
    (List.replicate n 0) i
  simp only [hi, if_true, List.getElem?_replicate_of_lt hi, Option.map_some'] at h
  exact h

theorem smoothIndices_bounds (R M k : Nat) (hM : 1 ≤ M) (hR : 1 ≤ R) (hk : k < M * R) :
    (smoothIndices R M k).2.1 = ((k / R : Nat) : Int) ∧
    (0 ≤ (smoothIndices R M k).1 ∧ (smoothIndices R M k).1 ≤ (M : Int) - 1) ∧
    (0 ≤ (smoothIndices R M k).2.1 ∧ (smoothIndices R M k).2.1 ≤ (M : Int) - 1) ∧
    (0 ≤ (smoothIndices R M k).2.2.1 ∧ (smoothIndices R M k).2.2.1 ≤ (M : Int) - 1) ∧
    (0 ≤ (smoothIndices R M k).2.2.2 ∧ (smoothIndices R M k).2.2.2 ≤ (M : Int) - 1) := by
  have hdiv : k / R < M := (Nat.div_lt_iff_lt_mul (by omega)).mpr hk
  have ht1 : ((k : Int) / (R : Int)) = ((k / R : Nat) : Int) := by norm_cast
  simp only [smoothIndices, ht1]
  generalize k / R = q at hdiv
  have h1 : max ((q : Int) - 1) 0 = if (q : Int) - 1 ≤ 0 then 0 else (q : Int) - 1 := by
    split_ifs with h
    · exact max_eq_right h
    · exact max_eq_left (by omega)
  have h2 : min ((q : Int) + 1) ((M : Int) - 1) =
      if (q : Int) + 1 ≤ (M : Int) - 1 then (q : Int) + 1 else (M : Int) - 1 := by
    split_ifs with h
    · exact min_eq_left h
    · exact min_eq_right (by omega)
  have h3 : min ((q : Int) + 2) ((M : Int) - 1) =
      if (q : Int) + 2 ≤ (M : Int) - 1 then (q : Int) + 2 else (M : Int) - 1 := by
    split_ifs with h
    · exact min_eq_left h
    · exact min_eq_right (by omega)
  rw [h1, h2, h3]
  refine ⟨trivial, ⟨?_, ?_⟩, ⟨?_, ?_⟩, ⟨?_, ?_⟩, ⟨?_, ?_⟩⟩ <;> omega

theorem smoothSample_at_control (R M : Nat) (ctrl : List α) (s : Nat) (hR : 1 ≤ R) :
    smoothSample R M ctrl (s * R) = ctrl.getD s 0 := by
  have hR' : (R : α) ≠ 0 := by
    have : (0 : α) < (R : α) := by exact_mod_cast hR
    exact ne_of_gt this
  have ht1 : (((s * R : Nat) : Int) / (R : Int)) = (s : Int) := by
    have : (R : Int) ≠ 0 := by omega
    push_cast
    exact Int.mul_ediv_cancel _ this
  have ht : ((s * R : Nat) : α) / (R : α) - (((s : Int) : Int) : α) = 0 := by
    push_cast
    field_simp
  simp only [smoothSample, smoothIndices, ht1, ht, cubicInterpolate_zero, Int.toNat_ofNat]

theorem smooth_at_control (R : Nat) (ctrl : List α) (s : Nat) (hR : 1 ≤ R)
    (hs : s < ctrl.length) :
    (smooth R ctrl.length (ctrl.length * R) ctrl)[s * R]? = ctrl[s]? := by
  have hlt : s * R < ctrl.length * R := Nat.mul_lt_mul_of_pos_right hs (by omega)
  rw [smooth_getElem? R ctrl.length _ ctrl (s * R) hlt, smoothSample_at_control R _ ctrl s hR]
  simp [List.getD_eq_getElem?_getD, List.getElem?_eq_getElem hs]

end Smooth

/-! ## Properties of frame processing -/

section Frame

variable {α : Type} [LinearOrderedField α]

theorem aggregateLoop_length (b : List Int) (mags : List α) (bins : List Nat) (cY : List α) :
    (aggregateLoop b mags bins cY).length = cY.length := by
  induction bins generalizing cY with
  | nil => rfl
  | cons i rest ih =>
    unfold aggregateLoop
    simp only
    split_ifs
    · rfl
    · rw [ih]
      simp

theorem doFFT_noop (log10 : α → α) (hypot : α → α → α) (fftw_execute : List α → List (α × α))
    (st : FFTAudioCallback α) (maxDb0 : α) (h : st.m_numPlotPoints = 0) :
    doFFT log10 hypot fftw_execute st maxDb0 = st := by
  simp [doFFT, h]

theorem doFFT_chunkY_length (log10 : α → α) (hypot : α → α → α)
    (fftw_execute : List α → List (α × α)) (st : FFTAudioCallback α) (maxDb0 : α)
    (h : st.m_numPlotPoints ≠ 0) :
    (doFFT log10 hypot fftw_execute st maxDb0).m_chunkY.length = st.m_numChunks := by
  simp [doFFT, h, aggregateLoop_length]

theorem doFFT_plotY (log10 : α → α) (hypot : α → α → α)
    (fftw_execute : List α → List (α × α)) (st : FFTAudioCallback α) (maxDb0 : α)
    (h : st.m_numPlotPoints ≠ 0) :
    (doFFT log10 hypot fftw_execute st maxDb0).m_plotY =
      smooth st.m_cubicResolution st.m_numChunks st.m_numPlotPoints
        (doFFT log10 hypot fftw_execute st maxDb0).m_chunkY := by
  simp [doFFT, h]

theorem doFFT_sizes (log10 : α → α) (hypot : α → α → α)
    (fftw_execute : List α → List (α × α)) (st : FFTAudioCallback α) (maxDb0 : α) :
    (doFFT log10 hypot fftw_execute st maxDb0).m_numChunks = st.m_numChunks ∧
    (doFFT log10 hypot fftw_execute st maxDb0).m_numPlotPoints = st.m_numPlotPoints ∧
    (doFFT log10 hypot fftw_execute st maxDb0).m_cubicResolution = st.m_cubicResolution ∧
    (doFFT log10 hypot fftw_execute st maxDb0).m_bufferSize = st.m_bufferSize ∧
    (doFFT log10 hypot fftw_execute st maxDb0).m_spectrumSize = st.m_spectrumSize ∧
    (doFFT log10 hypot fftw_execute st maxDb0).m_writePos = st.m_writePos ∧
    (doFFT log10 hypot fftw_execute st maxDb0).m_samples = st.m_samples ∧
    (doFFT log10 hypot fftw_execute st maxDb0).m_binToChunk = st.m_binToChunk := by
  unfold doFFT
  split_ifs <;> simp

theorem doFFT_maxDb_ge (log10 : α → α) (hypot : α → α → α)
    (fftw_execute : List α → List (α × α)) (st : FFTAudioCallback α) (maxDb0 : α) :
    st.m_maxDb ≤ (doFFT log10 hypot fftw_execute st maxDb0).m_maxDb := by
  unfold doFFT
  split_ifs with h1
  · exact le_rfl
  · simp only
    split_ifs with h2
    · exact le_of_lt h2
    · exact le_rfl

theorem aggregateLoop_eq_skip_takeWhile (b : List Int) (mags : List α) (bins : List Nat)
    (cY : List α) :
    aggregateLoop b mags bins cY =
      aggregateSkip b mags (bins.takeWhile (chunkInBounds b cY.length)) cY := by
  induction bins generalizing cY with
  | nil => simp [aggregateLoop, aggregateSkip]
  | cons i rest ih =>
    by_cases hin : b.getD i 0 < 0 ∨ b.getD i 0 ≥ (cY.length : Int)
    · have hb : chunkInBounds b cY.length i = false := decide_eq_false (not_not.mpr hin)
      rw [List.takeWhile_cons, hb]
      simp only [aggregateLoop, hin, if_true]
      simp [aggregateSkip]
    · have hb : chunkInBounds b cY.length i = true := decide_eq_true hin
      rw [List.takeWhile_cons, hb]
      simp only [aggregateLoop, aggregateSkip, hin, if_false, if_true]
      rw [ih]
      simp

theorem aggregateSkip_all_out (b : List Int) (mags : List α) (bins : List Nat) (cY : List α)
    (h : ∀ i ∈ bins, chunkInBounds b cY.length i = false) :
    aggregateSkip b mags bins cY = cY := by
  induction bins with
  | nil => rfl
  | cons i rest ih =>
    have hi : b.getD i 0 < 0 ∨ b.getD i 0 ≥ (cY.length : Int) :=
      not_not.mp (of_decide_eq_false (h i (List.mem_cons_self _ _)))
    simp only [aggregateSkip, hi, if_true]
    exact ih (fun j hj => h j (List.mem_cons_of_mem _ hj))

/-- When no in-bounds bin follows an out-of-bounds bin, leaving the loop at the first
out-of-bounds bin and skipping the out-of-bounds bins give the same chunks. -/
theorem aggregateLoop_eq_skip_of_closed (b : List Int) (mags : List α) (bins : List Nat)
    (cY : List α)
    (h : bins.Pairwise (fun i j =>
      chunkInBounds b cY.length i = false → chunkInBounds b cY.length j = false)) :
    aggregateLoop b mags bins cY = aggregateSkip b mags bins cY := by
  induction bins generalizing cY with
  | nil => rfl
  | cons i rest ih =>
    by_cases hin : b.getD i 0 < 0 ∨ b.getD i 0 ≥ (cY.length : Int)
    · have hb : chunkInBounds b cY.length i = false := decide_eq_false (not_not.mpr hin)
      simp only [aggregateLoop, aggregateSkip, hin, if_true]
      exact (aggregateSkip_all_out b mags rest cY
        (fun j hj => List.rel_of_pairwise_cons h hj hb)).symm
    · simp only [aggregateLoop, aggregateSkip, hin, if_false]
      apply ih
      simpa using h.of_cons

theorem foldl_max_spec (v : Nat → α) (L : List Nat) (a : α) :
    a ≤ L.foldl (fun acc i => max acc (v i)) a ∧
    (∀ i ∈ L, v i ≤ L.foldl (fun acc i => max acc (v i)) a) ∧
    (L.foldl (fun acc i => max acc (v i)) a = a ∨
      ∃ i ∈ L, L.foldl (fun acc i => max acc (v i)) a = v i) := by
  induction L generalizing a with
  | nil => simp
  | cons j rest ih =>
    obtain ⟨h1, h2, h3⟩ := ih (max a (v j))
    simp only [List.foldl_cons, List.mem_cons]
    refine ⟨le_trans (le_max_left _ _) h1, ?_, ?_⟩
    · intro i hi
      rcases hi with rfl | hi
      · exact le_trans (le_max_right _ _) h1
      · exact h2 i hi
    · rcases h3 with h3 | ⟨i, hi, h3⟩
      · rcases le_total a (v j) with hle | hle
        · right
          exact ⟨j, Or.inl rfl, by rw [h3, max_eq_right hle]⟩
        · left
          rw [h3, max_eq_left hle]
      · right
        exact ⟨i, Or.inr hi, h3⟩

/-- With every listed bin in bounds, the aggregation loop leaves in chunk `c` the maximum of
the chunk's starting value and the magnitudes of the listed bins mapped to `c`. -/
theorem aggregateLoop_getElem? (b : List Int) (mags : List α) (bins : List Nat) (cY : List α)
    (h : ∀ i ∈ bins, chunkInBounds b cY.length i = true) (c : Nat) (hc : c < cY.length) :
    (aggregateLoop b mags bins cY)[c]? =
      some ((bins.filter (fun i => decide (b.getD i 0 = (c : Int)))).foldl
        (fun acc i => max acc (mags.getD i 0)) (cY.getD c 0)) := by
  induction bins generalizing cY with
  | nil => simp [aggregateLoop, List.getElem?_eq_getElem hc]
  | cons i rest ih =>
    have hi := h i (List.mem_cons_self _ _)
    have hin : ¬ (b.getD i 0 < 0 ∨ b.getD i 0 ≥ (cY.length : Int)) := of_decide_eq_true hi
    simp only [aggregateLoop, hin, if_false]
    have hrest : ∀ j ∈ rest, chunkInBounds b
        (cY.set (b.getD i 0).toNat (max (cY.getD (b.getD i 0).toNat 0) (mags.getD i 0))).length
        j = true := by
      intro j hj
      simpa using h j (List.mem_cons_of_mem _ hj)
    rw [ih _ hrest (by simpa using hc)]
    by_cases hbc : b.getD i 0 = (c : Int)
    · have htn : (b.getD i 0).toNat = c := by omega
      rw [List.filter_cons_of_pos (by simpa using hbc), List.foldl_cons, htn]
      congr 2
      rw [List.getD_eq_getElem?_getD, List.getElem?_set_self hc]
      rfl
    · have htn : (b.getD i 0).toNat ≠ c := by
        have : 0 ≤ b.getD i 0 := by
          by_contra hneg
          exact hin (Or.inl (by omega))
        omega
      rw [List.filter_cons_of_neg (by simpa using hbc)]
      congr 2
      rw [List.getD_eq_getElem?_getD, List.getElem?_set_ne htn, ← List.getD_eq_getElem?_getD]

theorem magnitude_scan (log10 : α → α) (hypot : α → α → α) (spectrum : List (α × α))
    (m0 : α) (l : List α) (k : Nat) :
    (List.range k).foldl (magnitudeStep log10 hypot spectrum) (m0, l) =
      ((List.range k).foldl (fun m i => max m (decibels log10 hypot spectrum i)) m0,
        (List.range k).foldl (fun acc i => acc.set i (decibels log10 hypot spectrum i)) l) := by
  induction k with
  | zero => simp
  | succ k ih =>
    simp only [List.range_succ, List.foldl_append, List.foldl_cons, List.foldl_nil, ih,
      magnitudeStep]
    congr 1
    split_ifs with h
    · exact (max_eq_right (le_of_lt h)).symm
    · exact (max_eq_left (not_lt.mp h)).symm

theorem doFFT_maxDb_eq (log10 : α → α) (hypot : α → α → α)
    (fftw_execute : List α → List (α × α)) (st : FFTAudioCallback α) (maxDb0 : α)
    (hne : st.m_numPlotPoints ≠ 0) :
    (doFFT log10 hypot fftw_execute st maxDb0).m_maxDb =
      max st.m_maxDb ((List.range st.m_spectrumSize).foldl
        (fun m i => max m (decibels log10 hypot (fftw_execute st.m_samples) i)) maxDb0) := by
  simp only [doFFT, hne, if_false, magnitude_scan]
  split_ifs with h
  · exact (max_eq_right (le_of_lt h)).symm
  · exact (max_eq_left (not_lt.mp h)).symm

theorem doFFT_spectrum (log10 : α → α) (hypot : α → α → α)
    (fftw_execute : List α → List (α × α)) (st : FFTAudioCallback α) (maxDb0 : α)
    (hne : st.m_numPlotPoints ≠ 0) :
    (doFFT log10 hypot fftw_execute st maxDb0).m_spectrum = fftw_execute st.m_samples := by
  simp [doFFT, hne]

theorem doFFT_magnitudeSpectrum (log10 : α → α) (hypot : α → α → α)
    (fftw_execute : List α → List (α × α)) (st : FFTAudioCallback α) (maxDb0 : α)
    (hne : st.m_numPlotPoints ≠ 0) (hlen : st.m_magnitudeSpectrum.length = st.m_spectrumSize)
    (i : Nat) (hi : i < st.m_spectrumSize) :
    (doFFT log10 hypot fftw_execute st maxDb0).m_magnitudeSpectrum[i]? =
      some ((decibels log10 hypot (fftw_execute st.m_samples) i -
        (doFFT log10 hypot fftw_execute st maxDb0).m_maxDb) / 60 + 1) := by
  simp only [doFFT, hne, if_false, magnitude_scan]
  generalize hc : (if (List.range st.m_spectrumSize).foldl
      (fun m i => max m (decibels log10 hypot (fftw_execute st.m_samples) i)) maxDb0 >
        st.m_maxDb
    then (List.range st.m_spectrumSize).foldl
      (fun m i => max m (decibels log10 hypot (fftw_execute st.m_samples) i)) maxDb0
    else st.m_maxDb) = ceiling
  have h1 := foldl_set_range_getElem? (0 : α)
    (fun _ j => decibels log10 hypot (fftw_execute st.m_samples) j) st.m_spectrumSize
    st.m_magnitudeSpectrum i
  have h2 := foldl_set_range_getElem? (0 : α) (fun v _ => (v - ceiling) / 60 + 1)
    st.m_spectrumSize
    ((List.range st.m_spectrumSize).foldl
      (fun acc i => acc.set i (decibels log10 hypot (fftw_execute st.m_samples) i))
      st.m_magnitudeSpectrum) i
  simp only [hi, if_true] at h1 h2
  have hm : st.m_magnitudeSpectrum[i]? = some st.m_magnitudeSpectrum[i] :=
    List.getElem?_eq_getElem (by omega)
  rw [h1, hm] at h2
  have hn : normalizeStep ceiling =
      fun (acc : List α) j => acc.set j ((acc.getD j 0 - ceiling) / 60 + 1) := rfl
  rw [hn]
  simpa using h2

theorem doFFT_chunkY_getElem? (log10 : α → α) (hypot : α → α → α)
    (fftw_execute : List α → List (α × α)) (st : FFTAudioCallback α) (maxDb0 : α)
    (hne : st.m_numPlotPoints ≠ 0)
    (hin : ∀ i, i < st.m_spectrumSize → chunkInBounds st.m_binToChunk st.m_numChunks i = true)
    (c : Nat) (hc : c < st.m_numChunks) :
    (doFFT log10 hypot fftw_execute st maxDb0).m_chunkY[c]? =
      some (((List.range st.m_spectrumSize).filter
        (fun i => decide (st.m_binToChunk.getD i 0 = (c : Int)))).foldl
        (fun acc i => max acc
          ((doFFT log10 hypot fftw_execute st maxDb0).m_magnitudeSpectrum.getD i 0)) 0) := by
  simp only [doFFT, hne, if_false]
  rw [aggregateLoop_getElem? _ _ _ _ (by
    intro i hi
    simpa using hin i (List.mem_range.mp hi)) c (by simpa using hc)]
  simp [List.getElem?_replicate_of_lt hc]

end Frame

/-! ## Properties of sample accumulation -/

section Accumulate

variable {α : Type} [LinearOrderedField α]

theorem processTraced_succ (log10 : α → α) (hypot : α → α → α)
    (fftw_execute : List α → List (α × α)) (st : FFTAudioCallback α) (input : Nat → α)
    (k : Nat) (junk : Nat → α) :
    processTraced log10 hypot fftw_execute st input (k + 1) junk =
      processStep log10 hypot fftw_execute input junk
        (processTraced log10 hypot fftw_execute st input k junk) k := by
  simp [processTraced, List.range_succ, List.foldl_append]

theorem processStep_maxDb_ge (log10 : α → α) (hypot : α → α → α)
    (fftw_execute : List α → List (α × α)) (input : Nat → α) (junk : Nat → α)
    (s : FFTAudioCallback α × List (Event α)) (i : Nat) :
    s.1.m_maxDb ≤ (processStep log10 hypot fftw_execute input junk s i).1.m_maxDb := by
  unfold processStep
  simp only
  split_ifs
  · exact doFFT_maxDb_ge log10 hypot fftw_execute
      { s.1 with
        m_samples := s.1.m_samples.set s.1.m_writePos (input i)
        m_writePos := s.1.m_writePos + 1 } (junk i)
  · exact le_rfl

theorem process_maxDb_ge (log10 : α → α) (hypot : α → α → α)
    (fftw_execute : List α → List (α × α)) (st : FFTAudioCallback α) (input : Nat → α)
    (n : Nat) (junk : Nat → α) :
    st.m_maxDb ≤ (process log10 hypot fftw_execute st input n junk).m_maxDb := by
  unfold process
  induction n with
  | zero => simp [processTraced]
  | succ k ih =>
    rw [processTraced_succ]
    exact le_trans ih (processStep_maxDb_ge log10 hypot fftw_execute input junk _ k)

theorem add_one_mod_eq (a N : Nat) (hN : 1 ≤ N) :
    (a + 1) % N = if a % N + 1 = N then 0 else a % N + 1 := by
  have hlt : a % N < N := Nat.mod_lt _ (by omega)
  have ha : a + 1 = N * (a / N) + (a % N + 1) := by
    rw [← Nat.add_assoc, Nat.div_add_mod]
  generalize a % N = r at hlt ha
  split_ifs with h
  · have ha' : a + 1 = N * (a / N + 1) := by rw [ha, h, Nat.mul_add, Nat.mul_one]
    rw [ha', Nat.mul_mod_right]
  · rw [ha, Nat.mul_add_mod, Nat.mod_eq_of_lt (by omega)]

theorem add_one_div_eq (a N : Nat) (hN : 1 ≤ N) :
    (a + 1) / N = a / N + if a % N + 1 = N then 1 else 0 := by
  have hlt : a % N < N := Nat.mod_lt _ (by omega)
  have ha : a + 1 = N * (a / N) + (a % N + 1) := by
    rw [← Nat.add_assoc, Nat.div_add_mod]
  generalize a % N = r at hlt ha
  generalize a / N = q at ha
  split_ifs with h
  · have ha' : a + 1 = N * (q + 1) := by rw [ha, h, Nat.mul_add, Nat.mul_one]
    rw [ha', Nat.mul_div_cancel_left _ (by omega)]
  · rw [ha, Nat.mul_add_div (by omega), Nat.div_eq_of_lt (by omega)]

theorem processStep_fields (log10 : α → α) (hypot : α → α → α)
    (fftw_execute : List α → List (α × α)) (input : Nat → α) (junk : Nat → α)
    (s : FFTAudioCallback α × List (Event α)) (i : Nat) :
    (processStep log10 hypot fftw_execute input junk s i).1.m_bufferSize = s.1.m_bufferSize ∧
    (processStep log10 hypot fftw_execute input junk s i).1.m_writePos =
      (if s.1.m_writePos + 1 = s.1.m_bufferSize then 0 else s.1.m_writePos + 1) ∧
    (processStep log10 hypot fftw_execute input junk s i).2 =
      s.2 ++ iterationEvents s.1.m_bufferSize s.1.m_writePos (input i) ∧
    (processStep log10 hypot fftw_execute input junk s i).1.m_samples =
      s.1.m_samples.set s.1.m_writePos (input i) := by
  unfold processStep iterationEvents
  simp only
  split_ifs with h
  · refine ⟨?_, rfl, by simp, ?_⟩
    · exact (doFFT_sizes log10 hypot fftw_execute
        { s.1 with
          m_samples := s.1.m_samples.set s.1.m_writePos (input i)
          m_writePos := s.1.m_writePos + 1 } (junk i)).2.2.2.1
    · exact (doFFT_sizes log10 hypot fftw_execute
        { s.1 with
          m_samples := s.1.m_samples.set s.1.m_writePos (input i)
          m_writePos := s.1.m_writePos + 1 } (junk i)).2.2.2.2.2.2.1
  · exact ⟨rfl, rfl, rfl, rfl⟩

/-- The state of `process` after `k` samples: capacity, cursor, record of events and number
of `doFFT` calls. -/
theorem processTraced_inv (log10 : α → α) (hypot : α → α → α)
    (fftw_execute : List α → List (α × α)) (st : FFTAudioCallback α) (input : Nat → α)
    (junk : Nat → α) (hN : 1 ≤ st.m_bufferSize) (hc : st.m_writePos < st.m_bufferSize)
    (k : Nat) :
    (processTraced log10 hypot fftw_execute st input k junk).1.m_bufferSize = st.m_bufferSize ∧
    (processTraced log10 hypot fftw_execute st input k junk).1.m_writePos =
      (st.m_writePos + k) % st.m_bufferSize ∧
    (processTraced log10 hypot fftw_execute st input k junk).2 =
      ((List.range k).map (fun i => iterationEvents st.m_bufferSize
        ((st.m_writePos + i) % st.m_bufferSize) (input i))).flatten ∧
    (processTraced log10 hypot fftw_execute st input k junk).2.countP Event.isWindowComplete =
      (st.m_writePos + k) / st.m_bufferSize ∧
    (processTraced log10 hypot fftw_execute st input k junk).2.filter
        (fun e => !e.isWindowComplete) =
      (List.range k).map (fun i => Event.write ((st.m_writePos + i) % st.m_bufferSize)
        (input i)) ∧
    (processTraced log10 hypot fftw_execute st input k junk).1.m_samples =
      replayWrites st.m_samples (processTraced log10 hypot fftw_execute st input k junk).2 := by
  induction k with
  | zero =>
    simp [processTraced, replayWrites, Nat.mod_eq_of_lt hc, Nat.div_eq_of_lt hc]
  | succ k ih =>
    obtain ⟨h1, h2, h3, h4, h5, h6⟩ := ih
    rw [processTraced_succ]
    obtain ⟨g1, g2, g3, g4⟩ := processStep_fields log10 hypot fftw_execute input junk
      (processTraced log10 hypot fftw_execute st input k junk) k
    have hmod := add_one_mod_eq (st.m_writePos + k) st.m_bufferSize hN
    have hdiv := add_one_div_eq (st.m_writePos + k) st.m_bufferSize hN
    rw [h1, h2] at g2 g3
    rw [h1] at g1
    rw [← Nat.add_assoc]
    refine ⟨g1, by rw [g2, hmod], ?_, ?_, ?_, ?_⟩
    · rw [g3, h3]
      simp [List.range_succ]
    · rw [g3, List.countP_append, h4, hdiv]
      congr 1
      unfold iterationEvents
      split_ifs <;> simp [List.countP_cons, Event.isWindowComplete]
    · rw [g3, List.filter_append, h5, List.range_succ, List.map_append]
      congr 1
      unfold iterationEvents
      split_ifs <;> simp [List.filter_cons, Event.isWindowComplete]
    · rw [g4, g3, h6]
      unfold replayWrites iterationEvents
      rw [List.foldl_append]
      split_ifs <;> simp [h2]

/-- What iteration `i` of `process` does to the state the first `i` iterations leave: it
writes the sample at `(c + i) mod N` and advances the cursor; when that was position `N - 1`
it then runs `doFFT` on the state just written and resets the cursor, and otherwise it does
nothing more. -/
theorem process_succ (log10 : α → α) (hypot : α → α → α)
    (fftw_execute : List α → List (α × α)) (st : FFTAudioCallback α) (input : Nat → α)
    (junk : Nat → α) (hN : 1 ≤ st.m_bufferSize) (hc : st.m_writePos < st.m_bufferSize)
    (i : Nat) :
    process log10 hypot fftw_execute st input (i + 1) junk =
      if (st.m_writePos + i) % st.m_bufferSize + 1 = st.m_bufferSize then
        { doFFT log10 hypot fftw_execute
            { process log10 hypot fftw_execute st input i junk with
              m_samples := (process log10 hypot fftw_execute st input i junk).m_samples.set
                ((st.m_writePos + i) % st.m_bufferSize) (input i)
              m_writePos := (st.m_writePos + i) % st.m_bufferSize + 1 } (junk i) with
          m_writePos := 0 }
      else
        { process log10 hypot fftw_execute st input i junk with
          m_samples := (process log10 hypot fftw_execute st input i junk).m_samples.set
            ((st.m_writePos + i) % st.m_bufferSize) (input i)
          m_writePos := (st.m_writePos + i) % st.m_bufferSize + 1 } := by
  obtain ⟨h1, h2, _⟩ := processTraced_inv log10 hypot fftw_execute st input junk hN hc i
  unfold process
  rw [processTraced_succ]
  generalize processTraced log10 hypot fftw_execute st input i junk = s at h1 h2
  unfold processStep
  simp only [h1, h2]
  split_ifs <;> rfl

/-- Among the first `n` samples, the ones written at position `N - 1` number
`(c + n) div N`. -/
theorem window_count (c N : Nat) (hN : 1 ≤ N) (hc : c < N) (n : Nat) :
    (List.range n).countP (fun i => decide ((c + i) % N + 1 = N)) = (c + n) / N := by
  induction n with
  | zero => simp [Nat.div_eq_of_lt hc]
  | succ k ih =>
    rw [List.range_succ, List.countP_append, ih, ← Nat.add_assoc, add_one_div_eq (c + k) N hN]
    congr 1
    by_cases h : (c + k) % N + 1 = N <;> simp [List.countP_cons, h]

end Accumulate

/-! ## Properties of the perceptual mapping -/

section Remap

variable {α : Type} [LinearOrderedField α]

theorem remapLoop_succ [FloorRing α] (log10 : α → α) (n : Nat) (w : Int) (k : Nat) :
    remapLoop log10 n w (k + 1) = remapStep log10 n w (remapLoop log10 n w k) k := by
  simp [remapLoop, List.range_succ, List.foldl_append]

theorem fftBinToFrequency_nonneg (n i : Nat) : (0 : α) ≤ fftBinToFrequency n i := by
  unfold fftBinToFrequency
  positivity

theorem fftBinToFrequency_mono (n : Nat) {i j : Nat} (hij : i ≤ j) :
    (fftBinToFrequency n i : α) ≤ fftBinToFrequency n j := by
  unfold fftBinToFrequency
  have h : (i : α) ≤ (j : α) := by exact_mod_cast hij
  have hn : (0 : α) ≤ (n : α) := by positivity
  exact div_le_div_of_nonneg_right (by linarith) hn

theorem erbs_mono (log10 : α → α) (hmono : ∀ x y : α, 1 ≤ x → x ≤ y → log10 x ≤ log10 y)
    {f g : α} (hf : 0 ≤ f) (hfg : f ≤ g) : erbs log10 f ≤ erbs log10 g := by
  unfold erbs
  have h1 : (1 : α) ≤ 0.00437 * f + 1 := by
    have : (0 : α) ≤ 0.00437 * f := mul_nonneg (by norm_num) hf
    linarith
  have h2 : (0.00437 : α) * f + 1 ≤ 0.00437 * g + 1 := by
    have : (0.00437 : α) * f ≤ 0.00437 * g := mul_le_mul_of_nonneg_left hfg (by norm_num)
    linarith
  exact mul_le_mul_of_nonneg_left (hmono _ _ h1 h2) (by norm_num)

theorem position_mono (log10 : α → α) (hmono : ∀ x y : α, 1 ≤ x → x ≤ y → log10 x ≤ log10 y)
    {f g : α} (hf : 0 ≤ f) (hfg : f ≤ g) : position log10 f ≤ position log10 g := by
  unfold position
  have hD : (0 : α) ≤ erbs log10 20000 - erbs log10 20 := by
    have := erbs_mono log10 hmono (f := (20 : α)) (g := 20000) (by norm_num) (by norm_num)
    linarith
  have := erbs_mono log10 hmono hf hfg
  exact div_le_div_of_nonneg_right (by linarith) hD

theorem binPosition_mono (log10 : α → α)
    (hmono : ∀ x y : α, 1 ≤ x → x ≤ y → log10 x ≤ log10 y) (n : Nat) {i j : Nat}
    (hij : i ≤ j) : binPosition log10 n i ≤ binPosition log10 n j := by
  unfold binPosition
  exact position_mono log10 hmono (fftBinToFrequency_nonneg n i) (fftBinToFrequency_mono n hij)


theorem nominalChunk_mono [FloorRing α] (log10 : α → α)
    (hmono : ∀ x y : α, 1 ≤ x → x ≤ y → log10 x ≤ log10 y) (n : Nat) (w : Int) (hw : 0 ≤ w)
    {i j : Nat} (hij : i ≤ j) : nominalChunk log10 n w i ≤ nominalChunk log10 n w j := by
  unfold nominalChunk
  apply Int.floor_mono
  have hw' : (0 : α) ≤ (w : α) := by exact_mod_cast hw
  have := mul_le_mul_of_nonneg_right (binPosition_mono log10 hmono n hij) hw'
  linarith

theorem remapLoop_inv [FloorRing α] (log10 : α → α) (n : Nat) (w : Int) (k : Nat) (hk : k ≤ n) :
    RemapInv log10 n w k (remapLoop log10 n w k) := by
  induction k with
  | zero =>
    refine ⟨by simp [remapLoop, remapInit], ?_, ?_⟩
    · simp [remapLoop, remapInit]
    · intro i hi; omega
  | succ k ih =>
    have ih := ih (by omega)
    have hlen := ih.length_eq
    have hkn : k < (remapLoop log10 n w k).m_binToChunk.length := by omega
    rw [remapLoop_succ]
    generalize remapLoop log10 n w k = s at ih hlen hkn
    unfold remapStep
    by_cases hp : binPosition log10 n k > 1
    · simp only [hp, if_true]
      refine ⟨by simpa using hlen, ?_, ?_⟩
      · intro hf
        obtain ⟨f, hfk, h1, h2, h3⟩ := ih.anchor hf
        exact ⟨f, by omega, h1, h2, h3⟩
      · intro i hi
        by_cases hik : i = k
        · subst hik
          simp [binEntry, hp, List.getElem?_set_self hkn]
        · have := ih.entries i (by omega)
          simpa [binEntry, List.getElem?_set_ne (Ne.symm hik)] using this
    · simp only [hp, if_false]
      by_cases hf : s.foundMultiChunk = true
      · simp only [hf, if_true]
        obtain ⟨f, hfk, h1, h2, h3⟩ := ih.anchor hf
        refine ⟨by simpa using hlen, ?_, ?_⟩
        · intro _
          exact ⟨f, by omega, h1, h2, h3⟩
        · intro i hi
          by_cases hik : i = k
          · subst hik
            have : s.firstMultiChunk < (i : Int) := by omega
            simp [binEntry, hp, hf, this, List.getElem?_set_self hkn]
          · have := ih.entries i (by omega)
            simpa [binEntry, hf, List.getElem?_set_ne (Ne.symm hik)] using this
      · have hf' : s.foundMultiChunk = false := by simpa using hf
        simp only [hf', Bool.false_eq_true, if_false]
        by_cases hl : nominalChunk log10 n w k = s.lastNominalChunk
        · simp only [hl, if_true]
          refine ⟨by simpa using hlen, ?_, ?_⟩
          · intro _
            exact ⟨k, by omega, rfl, hl.symm, le_of_not_gt hp⟩
          · intro i hi
            by_cases hik : i = k
            · subst hik
              simp [binEntry, hp, List.getElem?_set_self hkn]
            · have := ih.entries i (by omega)
              have hlt : ¬ ((k : Int) < (i : Int)) := by omega
              simpa [binEntry, hf', hlt, List.getElem?_set_ne (Ne.symm hik)] using this
        · simp only [hl, if_false]
          refine ⟨by simpa using hlen, ?_, ?_⟩
          · intro h
            simp [hf'] at h
          · intro i hi
            by_cases hik : i = k
            · subst hik
              simp [binEntry, hp, hf', List.getElem?_set_self hkn]
            · have := ih.entries i (by omega)
              simpa [binEntry, hf', List.getElem?_set_ne (Ne.symm hik)] using this

theorem binEntry_mono [FloorRing α] (log10 : α → α)
    (hmono : ∀ x y : α, 1 ≤ x → x ≤ y → log10 x ≤ log10 y) (n : Nat) (w : Int) (hw : 0 ≤ w)
    (k : Nat) (s : RemapLoop α) (hinv : RemapInv log10 n w k s) {i j : Nat} (hij : i < j)
    (hi : binEntry log10 n w s i ≠ -1) (hj : binEntry log10 n w s j ≠ -1) :
    binEntry log10 n w s i ≤ binEntry log10 n w s j := by
  unfold binEntry at hi hj ⊢
  by_cases hpi : binPosition log10 n i > 1
  · simp [hpi] at hi
  by_cases hpj : binPosition log10 n j > 1
  · simp [hpj] at hj
  simp only [hpi, hpj, if_false]
  have hnom := nominalChunk_mono log10 hmono n w hw (le_of_lt hij)
  by_cases hf : s.foundMultiChunk = true
  · obtain ⟨f, _, h1, h2, _⟩ := hinv.anchor hf
    by_cases hfi : s.firstMultiChunk < (i : Int)
    · have hfj : s.firstMultiChunk < (j : Int) := by omega
      simp only [hf, hfi, hfj, and_self, if_true]
      omega
    · by_cases hfj : s.firstMultiChunk < (j : Int)
      · simp only [hf, hfi, hfj, and_self, and_false, if_true, if_false]
        have hfj' : f ≤ j := by omega
        have := nominalChunk_mono log10 hmono n w hw hfj'
        omega
      · simp only [hf, hfi, hfj, and_false, if_false]
        omega
  · have hf' : s.foundMultiChunk = false := by simpa using hf
    simp only [hf', Bool.false_eq_true, false_and, if_false]
    omega

theorem binPosition_zero_le (log10 : α → α)
    (hmono : ∀ x y : α, 1 ≤ x → x ≤ y → log10 x ≤ log10 y) (n : Nat) :
    binPosition log10 n 0 ≤ 0 := by
  unfold binPosition position
  have h0 : (fftBinToFrequency n 0 : α) = 0 := by simp [fftBinToFrequency]
  rw [h0]
  have hD : (0 : α) ≤ erbs log10 20000 - erbs log10 20 := by
    have := erbs_mono log10 hmono (f := (20 : α)) (g := 20000) (by norm_num) (by norm_num)
    linarith
  have hN : erbs log10 0 - erbs log10 20 ≤ 0 := by
    have := erbs_mono log10 hmono (f := (0 : α)) (g := 20) le_rfl (by norm_num)
    linarith
  exact div_nonpos_of_nonpos_of_nonneg hN hD

theorem position_le_one (log10 : α → α)
    (hmono : ∀ x y : α, 1 ≤ x → x ≤ y → log10 x ≤ log10 y) {f : α} (hf : 0 ≤ f)
    (hf' : f ≤ 20000) : position log10 f ≤ 1 := by
  unfold position
  have hN := erbs_mono log10 hmono hf hf'
  rcases eq_or_lt_of_le (show (0 : α) ≤ erbs log10 20000 - erbs log10 20 from by
    have := erbs_mono log10 hmono (f := (20 : α)) (g := 20000) (by norm_num) (by norm_num)
    linarith) with hD | hD
  · rw [← hD]; simp
  · rw [div_le_one hD]; linarith

theorem remapStep_chunkX_length_le [FloorRing α] (log10 : α → α) (n : Nat) (w : Int) (s : RemapLoop α)
    (i : Nat) : s.m_chunkX.length ≤ (remapStep log10 n w s i).m_chunkX.length := by
  unfold remapStep
  simp only
  split_ifs <;> simp

theorem remapLoop_chunkX_length_mono [FloorRing α] (log10 : α → α) (n : Nat) (w : Int) {k k' : Nat}
    (hk : k ≤ k') :
    (remapLoop log10 n w k).m_chunkX.length ≤ (remapLoop log10 n w k').m_chunkX.length := by
  induction k' with
  | zero =>
    have : k = 0 := by omega
    subst this
    exact le_rfl
  | succ m ih =>
    rcases Nat.eq_or_lt_of_le hk with h | h
    · rw [h]
    · rw [remapLoop_succ]
      exact le_trans (ih (by omega)) (remapStep_chunkX_length_le log10 n w _ m)

theorem remapStep_found_persist [FloorRing α] (log10 : α → α) (n : Nat) (w : Int) (s : RemapLoop α)
    (i : Nat) (hf : s.foundMultiChunk = true) :
    (remapStep log10 n w s i).foundMultiChunk = true ∧
    (remapStep log10 n w s i).firstMultiChunk = s.firstMultiChunk ∧
    (remapStep log10 n w s i).firstMultiChunkOffset = s.firstMultiChunkOffset := by
  unfold remapStep
  simp only [hf, if_true]
  split_ifs <;> simp [hf]

theorem remapLoop_found_persist [FloorRing α] (log10 : α → α) (n : Nat) (w : Int) {k k' : Nat}
    (hk : k ≤ k') (hf : (remapLoop log10 n w k).foundMultiChunk = true) :
    (remapLoop log10 n w k').foundMultiChunk = true ∧
    (remapLoop log10 n w k').firstMultiChunk = (remapLoop log10 n w k).firstMultiChunk ∧
    (remapLoop log10 n w k').firstMultiChunkOffset =
      (remapLoop log10 n w k).firstMultiChunkOffset := by
  induction k' with
  | zero =>
    have : k = 0 := by omega
    subst this
    exact ⟨hf, rfl, rfl⟩
  | succ m ih =>
    rcases Nat.eq_or_lt_of_le hk with h | h
    · subst h
      exact ⟨hf, rfl, rfl⟩
    · obtain ⟨h1, h2, h3⟩ := ih (by omega)
      rw [remapLoop_succ]
      obtain ⟨g1, g2, g3⟩ := remapStep_found_persist log10 n w _ m h1
      exact ⟨g1, g2.trans h2, g3.trans h3⟩

/-- When the nominal chunk of bin 0 is `-1`, the value `lastNominalChunk` starts with, the
loop takes bin 0 for the first multi-chunk bin; if the nominal chunk of bin 1 is then at
least `1`, bin 1 gets a chunk index of at least `2` and no bin gets chunk index `1`. -/
theorem remapLoop_collision [FloorRing α] (log10 : α → α)
    (hmono : ∀ x y : α, 1 ≤ x → x ≤ y → log10 x ≤ log10 y) (n : Nat) (w : Int) (hw : 0 ≤ w)
    (hn : 2 ≤ n) (h0 : nominalChunk log10 n w 0 = -1) (h1 : 1 ≤ nominalChunk log10 n w 1)
    (hp1 : binPosition log10 n 1 ≤ 1) :
    (remapLoop log10 n w n).m_binToChunk[0]? = some 0 ∧
    (remapLoop log10 n w n).m_binToChunk[1]? = some (nominalChunk log10 n w 1 + 1) ∧
    2 ≤ (remapLoop log10 n w n).m_chunkX.length ∧
    ∀ i : Nat, (remapLoop log10 n w n).m_binToChunk[i]? ≠ some 1 := by
  have hp0 : ¬ binPosition log10 n 0 > 1 := by
    have := binPosition_zero_le log10 hmono n
    intro h
    linarith
  have hp1' : ¬ binPosition log10 n 1 > 1 := not_lt.mpr hp1
  have e1 : (remapLoop log10 n w 1).foundMultiChunk = true ∧
      (remapLoop log10 n w 1).firstMultiChunk = 0 ∧
      (remapLoop log10 n w 1).firstMultiChunkOffset = -1 ∧
      (remapLoop log10 n w 1).lastNominalChunk = -1 ∧
      (remapLoop log10 n w 1).m_chunkX.length = 1 := by
    rw [remapLoop_succ]
    simp [remapLoop, remapStep, remapInit, hp0, h0]
  have e2 : (remapLoop log10 n w 2).m_chunkX.length = 2 := by
    rw [remapLoop_succ]
    obtain ⟨a1, a2, a3, a4, a5⟩ := e1
    have hne : nominalChunk log10 n w 1 ≠ -1 := by omega
    simp [remapStep, hp1', a1, a4, a5, hne]
  obtain ⟨f1, f2, f3⟩ := remapLoop_found_persist log10 n w (show 1 ≤ n by omega) e1.1
  rw [e1.2.1] at f2
  rw [e1.2.2.1] at f3
  have hinv := remapLoop_inv log10 n w n le_rfl
  refine ⟨?_, ?_, ?_, ?_⟩
  · rw [hinv.entries 0 (by omega)]
    simp [binEntry, hp0, f2]
  · rw [hinv.entries 1 (by omega)]
    simp [binEntry, hp1', f1, f2, f3]
  · have := remapLoop_chunkX_length_mono log10 n w hn
    omega
  · intro i hi
    have hin : i < n := by
      have := (List.getElem?_eq_some.mp hi).1
      rw [hinv.length_eq] at this
      exact this
    rw [hinv.entries i hin] at hi
    simp only [binEntry, f1, f2, f3, true_and, Option.some.injEq] at hi
    by_cases hp : binPosition log10 n i > 1
    · simp [hp] at hi
    · simp only [hp, if_false] at hi
      by_cases hi0 : (0 : Int) < (i : Int)
      · simp only [hi0, if_true] at hi
        have : nominalChunk log10 n w 1 ≤ nominalChunk log10 n w i :=
          nominalChunk_mono log10 hmono n w hw (by omega)
        omega
      · simp only [hi0, if_false] at hi
        omega

theorem position_nonneg (log10 : α → α)
    (hmono : ∀ x y : α, 1 ≤ x → x ≤ y → log10 x ≤ log10 y) {f : α} (hf : 20 ≤ f) :
    0 ≤ position log10 f := by
  unfold position
  have hD : (0 : α) ≤ erbs log10 20000 - erbs log10 20 := by
    have := erbs_mono log10 hmono (f := (20 : α)) (g := 20000) (by norm_num) (by norm_num)
    linarith
  have hN := erbs_mono log10 hmono (f := (20 : α)) (g := f) (by norm_num) hf
  exact div_nonneg (by linarith) hD

theorem nominalChunk_zero_width [FloorRing α] (log10 : α → α) (n i : Nat) :
    nominalChunk log10 n 0 i = 0 := by
  simp [nominalChunk]

theorem binPosition_one_le (log10 : α → α)
    (hmono : ∀ x y : α, 1 ≤ x → x ≤ y → log10 x ≤ log10 y) (n : Nat) (hn : 2 ≤ n) :
    binPosition log10 n 1 ≤ 1 := by
  unfold binPosition
  apply position_le_one log10 hmono (fftBinToFrequency_nonneg n 1)
  unfold fftBinToFrequency
  have hn' : (2 : α) ≤ (n : α) := by exact_mod_cast hn
  rw [div_le_iff₀ (by linarith)]
  simp only [Nat.cast_one, mul_one]
  linarith

/-- With two bins whose nominal chunks differ from each other and from `-1`, each bin is its
own chunk. -/
theorem remapLoop_two_bins [FloorRing α] (log10 : α → α)
    (hmono : ∀ x y : α, 1 ≤ x → x ≤ y → log10 x ≤ log10 y) (w : Int)
    (h0 : nominalChunk log10 2 w 0 ≠ -1)
    (h01 : nominalChunk log10 2 w 1 ≠ nominalChunk log10 2 w 0) :
    (remapLoop log10 2 w 2).m_binToChunk = [0, 1] ∧
    (remapLoop log10 2 w 2).m_chunkX.length = 2 := by
  have hp0 : ¬ binPosition log10 2 0 > 1 := by
    have := binPosition_zero_le log10 hmono 2
    intro h
    linarith
  have hp1 : ¬ binPosition log10 2 1 > 1 :=
    not_lt.mpr (binPosition_one_le log10 hmono 2 le_rfl)
  rw [remapLoop_succ, remapLoop_succ]
  simp [remapLoop, remapStep, remapInit, hp0, hp1, h0, h01]

/-- At display width 0 every nominal chunk is 0: bin 0 opens a chunk, bin 1 repeats the
nominal chunk and opens the second one, and no later bin opens another. -/
theorem remapLoop_zero_width [FloorRing α] (log10 : α → α)
    (hmono : ∀ x y : α, 1 ≤ x → x ≤ y → log10 x ≤ log10 y) (n : Nat) (hn : 2 ≤ n) (k : Nat)
    (hk : 2 ≤ k) :
    (remapLoop log10 n 0 k).foundMultiChunk = true ∧
    (remapLoop log10 n 0 k).lastNominalChunk = 0 ∧
    (remapLoop log10 n 0 k).m_chunkX.length = 2 := by
  have hp0 : ¬ binPosition log10 n 0 > 1 := by
    have := binPosition_zero_le log10 hmono n
    intro h
    linarith
  have hp1 : ¬ binPosition log10 n 1 > 1 := not_lt.mpr (binPosition_one_le log10 hmono n hn)
  induction k with
  | zero => omega
  | succ m ih =>
    rw [remapLoop_succ]
    rcases Nat.eq_or_lt_of_le hk with h | h
    · have hm : m = 1 := by omega
      subst hm
      rw [remapLoop_succ]
      simp [remapLoop, remapStep, remapInit, hp0, hp1, nominalChunk_zero_width]
    · obtain ⟨h1, h2, h3⟩ := ih (by omega)
      unfold remapStep
      by_cases hp : binPosition log10 n m > 1
      · simp [hp, h1, h2, h3]
      · simp [hp, h1, h2, h3, nominalChunk_zero_width]

theorem remapLoop_zero_width_length [FloorRing α] (log10 : α → α)
    (hmono : ∀ x y : α, 1 ≤ x → x ≤ y → log10 x ≤ log10 y) (n : Nat) :
    (remapLoop log10 n 0 n).m_chunkX.length = min n 2 := by
  rcases Nat.lt_or_ge n 2 with h | h
  · have hp0 : ¬ binPosition log10 1 0 > 1 := by
      have := binPosition_zero_le log10 hmono 1
      intro h
      linarith
    interval_cases n
    · simp [remapLoop, remapInit]
    · rw [remapLoop_succ]
      simp [remapLoop, remapStep, remapInit, hp0, nominalChunk_zero_width]
  · rw [(remapLoop_zero_width log10 hmono n h n h).2.2]
    omega

theorem binEntry_nonneg [FloorRing α] (log10 : α → α)
    (hmono : ∀ x y : α, 1 ≤ x → x ≤ y → log10 x ≤ log10 y) (n : Nat) (w : Int) (hw : 0 ≤ w)
    (k : Nat) (s : RemapLoop α) (hinv : RemapInv log10 n w k s) (i : Nat)
    (hp : ¬ binPosition log10 n i > 1) : 0 ≤ binEntry log10 n w s i := by
  unfold binEntry
  simp only [hp, if_false]
  by_cases hf : s.foundMultiChunk = true ∧ s.firstMultiChunk < (i : Int)
  · obtain ⟨f, _, h1, h2, _⟩ := hinv.anchor hf.1
    simp only [hf, and_self, if_true]
    have := nominalChunk_mono log10 hmono n w hw (show f ≤ i by omega)
    omega
  · simp only [hf, if_false]
    omega

/-- In the table `setWindowSize` builds for a width `w ≥ 0`, no bin that passes the bound
check of the aggregation loop follows a bin that fails it. -/
theorem remapLoop_out_of_bounds_closed [FloorRing α] (log10 : α → α)
    (hmono : ∀ x y : α, 1 ≤ x → x ≤ y → log10 x ≤ log10 y) (n : Nat) (w : Int) (hw : 0 ≤ w)
    (M : Nat) :
    (List.range n).Pairwise (fun i j =>
      chunkInBounds (remapLoop log10 n w n).m_binToChunk M i = false →
      chunkInBounds (remapLoop log10 n w n).m_binToChunk M j = false) := by
  have hinv := remapLoop_inv log10 n w n le_rfl
  refine (List.pairwise_lt_range n).imp_of_mem ?_
  intro i j hi hj hij hout
  have hi' := List.mem_range.mp hi
  have hj' := List.mem_range.mp hj
  have ei : (remapLoop log10 n w n).m_binToChunk.getD i 0 =
      binEntry log10 n w (remapLoop log10 n w n) i := by
    rw [List.getD_eq_getElem?_getD, hinv.entries i hi']
    rfl
  have ej : (remapLoop log10 n w n).m_binToChunk.getD j 0 =
      binEntry log10 n w (remapLoop log10 n w n) j := by
    rw [List.getD_eq_getElem?_getD, hinv.entries j hj']
    rfl
  have hout' : binEntry log10 n w (remapLoop log10 n w n) i < 0 ∨
      binEntry log10 n w (remapLoop log10 n w n) i ≥ (M : Int) := by
    rw [← ei]
    exact not_not.mp (of_decide_eq_false hout)
  apply decide_eq_false
  rw [not_not, ej]
  by_cases hpj : binPosition log10 n j > 1
  · left
    simp [binEntry, hpj]
  · have hpi : ¬ binPosition log10 n i > 1 := fun hpi =>
      hpj (lt_of_lt_of_le hpi (binPosition_mono log10 hmono n (le_of_lt hij)))
    have hni := binEntry_nonneg log10 hmono n w hw n _ hinv i hpi
    have hnj := binEntry_nonneg log10 hmono n w hw n _ hinv j hpj
    have hle := binEntry_mono log10 hmono n w hw n _ hinv hij (by omega) (by omega)
    right
    omega

theorem binPosition_concave (log10 : α → α)
    (hconc : ∀ x y : α, 1 ≤ x → 1 ≤ y → log10 x + log10 y ≤ 2 * log10 ((x + y) / 2))
    (hmono : ∀ x y : α, 1 ≤ x → x ≤ y → log10 x ≤ log10 y) (n i : Nat) :
    binPosition log10 n (i + 2) - binPosition log10 n (i + 1) ≤
      binPosition log10 n (i + 1) - binPosition log10 n i := by
  unfold binPosition position
  have hD : (0 : α) ≤ erbs log10 20000 - erbs log10 20 := by
    have := erbs_mono log10 hmono (f := (20 : α)) (g := 20000) (by norm_num) (by norm_num)
    linarith
  rw [← sub_div, ← sub_div]
  apply div_le_div_of_nonneg_right _ hD
  unfold erbs
  have h1 : ∀ j : Nat, (1 : α) ≤ 0.00437 * fftBinToFrequency n j + 1 := by
    intro j
    have : (0 : α) ≤ 0.00437 * fftBinToFrequency n j :=
      mul_nonneg (by norm_num) (fftBinToFrequency_nonneg n j)
    linarith
  have hmid : (0.00437 * fftBinToFrequency n (i + 1) + 1 : α) =
      ((0.00437 * fftBinToFrequency n i + 1) + (0.00437 * fftBinToFrequency n (i + 2) + 1)) / 2 := by
    unfold fftBinToFrequency
    push_cast
    ring
  have hc := hconc _ _ (h1 i) (h1 (i + 2))
  rw [← hmid] at hc
  linarith

/-- Past a bin `f ≥ 1` whose nominal chunk repeats that of bin `f - 1`, the nominal chunk
grows by at most 1 from one bin to the next. -/
theorem nominalChunk_step_le_one [FloorRing α] (log10 : α → α)
    (hconc : ∀ x y : α, 1 ≤ x → 1 ≤ y → log10 x + log10 y ≤ 2 * log10 ((x + y) / 2))
    (hmono : ∀ x y : α, 1 ≤ x → x ≤ y → log10 x ≤ log10 y) (n : Nat) (w : Int) (hw : 0 ≤ w)
    (f : Nat) (hf : 1 ≤ f)
    (hrep : nominalChunk log10 n w f = nominalChunk log10 n w (f - 1)) (j : Nat)
    (hj : f ≤ j) :
    nominalChunk log10 n w (j + 1) ≤ nominalChunk log10 n w j + 1 := by
  have hw' : (0 : α) ≤ (w : α) := by exact_mod_cast hw
  have hchain : ∀ m : Nat, binPosition log10 n (f + m + 1) - binPosition log10 n (f + m) ≤
      binPosition log10 n f - binPosition log10 n (f - 1) := by
    intro m
    induction m with
    | zero =>
      have := binPosition_concave log10 hconc hmono n (f - 1)
      have e1 : f - 1 + 2 = f + 1 := by omega
      have e2 : f - 1 + 1 = f := by omega
      rw [e1, e2] at this
      exact this
    | succ m ih =>
      have := binPosition_concave log10 hconc hmono n (f + m)
      exact le_trans this ih
  obtain ⟨m, rfl⟩ : ∃ m, j = f + m := ⟨j - f, by omega⟩
  have hd := hchain m
  unfold nominalChunk at hrep ⊢
  have hlt : binPosition log10 n f * (w : α) / 2 <
      binPosition log10 n (f - 1) * (w : α) / 2 + 1 := by
    have h1 := Int.floor_le (binPosition log10 n (f - 1) * (w : α) / 2)
    have h2 := Int.lt_floor_add_one (binPosition log10 n f * (w : α) / 2)
    rw [hrep] at h2
    linarith
  have hstep : binPosition log10 n (f + m + 1) * (w : α) / 2 <
      binPosition log10 n (f + m) * (w : α) / 2 + 1 := by
    have := mul_le_mul_of_nonneg_right hd hw'
    linarith
  have h3 := Int.floor_le (binPosition log10 n (f + m + 1) * (w : α) / 2)
  have h4 := Int.lt_floor_add_one (binPosition log10 n (f + m) * (w : α) / 2)
  have h5 : ((⌊binPosition log10 n (f + m + 1) * (w : α) / 2⌋ : Int) : α) <
      ((⌊binPosition log10 n (f + m) * (w : α) / 2⌋ + 2 : Int) : α) := by
    push_cast
    linarith
  have h6 := Int.cast_lt.mp h5
  omega

theorem set_lookup (T : List Int) (k i : Nat) (v a : Int) (hi : i < k + 1)
    (hk : k < T.length) (h : (T.set k v)[i]? = some a) :
    (i < k ∧ T[i]? = some a) ∨ (i = k ∧ a = v) := by
  by_cases hik : i = k
  · subst hik
    rw [List.getElem?_set_self hk] at h
    exact Or.inr ⟨rfl, (Option.some.inj h).symm⟩
  · rw [List.getElem?_set_ne (Ne.symm hik)] at h
    exact Or.inl ⟨by omega, h⟩

theorem remapLoop_chunkInv [FloorRing α] (log10 : α → α)
    (hconc : ∀ x y : α, 1 ≤ x → 1 ≤ y → log10 x + log10 y ≤ 2 * log10 ((x + y) / 2))
    (hmono : ∀ x y : α, 1 ≤ x → x ≤ y → log10 x ≤ log10 y) (n : Nat) (w : Int) (hw : 0 ≤ w)
    (h0 : nominalChunk log10 n w 0 ≠ -1) (k : Nat) (hk : k ≤ n) :
    ChunkInv log10 n w k (remapLoop log10 n w k) := by
  induction k with
  | zero =>
    refine ⟨?_, ?_, ?_, ?_, ?_, ?_⟩
    · intro i a hi
      omega
    · intro c hc
      simp [remapLoop, remapInit] at hc
    · intro _ _
      simp [remapLoop, remapInit]
    · intro _
      simp [remapLoop, remapInit]
    · intro j hj
      omega
    · intro hf
      simp [remapLoop, remapInit] at hf
  | succ k ih =>
    have ih := ih (by omega)
    have hlen := (remapLoop_inv log10 n w k (by omega)).length_eq
    have hkn : k < (remapLoop log10 n w k).m_binToChunk.length := by omega
    rw [remapLoop_succ]
    generalize remapLoop log10 n w k = s at ih hlen hkn
    have hprev : ∀ i, i < k → binPosition log10 n k ≤ 1 → binPosition log10 n i ≤ 1 :=
      fun i hi hp => le_trans (binPosition_mono log10 hmono n (le_of_lt hi)) hp
    unfold remapStep
    by_cases hp : binPosition log10 n k > 1
    · simp only [hp, if_true]
      refine ⟨?_, ?_, ?_, ?_, ?_, ?_⟩
      · intro i a hi hT ha
        rcases set_lookup _ k i _ a hi hkn hT with ⟨h1, h2⟩ | ⟨_, h2⟩
        · exact ih.stored_lt i a h1 h2 ha
        · exact absurd h2 ha
      · intro c hc
        obtain ⟨i, hi, hT⟩ := ih.stored_all c hc
        exact ⟨i, by omega, by rw [List.getElem?_set_ne (by omega)]; exact hT⟩
      · intro _ hall
        exact absurd (hall k (by omega)) (not_le.mpr hp)
      · intro h
        omega
      · intro j hj hpj
        have : j = k := by omega
        subst this
        exact absurd hpj (not_le.mpr hp)
      · intro hf
        obtain ⟨f, hf1, hfk, hfirst, hoff, hrep, _⟩ := ih.anchored hf
        refine ⟨f, hf1, by omega, hfirst, hoff, hrep, ?_⟩
        intro j hj hpj
        have : j = k := by omega
        subst this
        exact absurd hpj (not_le.mpr hp)
    · have hpk : binPosition log10 n k ≤ 1 := not_lt.mp hp
      simp only [hp, if_false]
      by_cases hf : s.foundMultiChunk = true
      · simp only [hf, if_true]
        obtain ⟨f, hf1, hfk, hfirst, hoff, hrep, hlenf⟩ := ih.anchored hf
        obtain ⟨j0, rfl⟩ : ∃ j0, k = j0 + 1 := ⟨k - 1, by omega⟩
        have hpj0 := hprev j0 (by omega) hpk
        have hL := ih.last_eq j0 rfl hpj0
        have hlen0 := hlenf j0 rfl hpj0
        have hup := nominalChunk_step_le_one log10 hconc hmono n w hw f hf1 hrep j0 (by omega)
        have hdown := nominalChunk_mono log10 hmono n w hw (show j0 ≤ j0 + 1 by omega)
        have hbase := nominalChunk_mono log10 hmono n w hw (show f ≤ j0 by omega)
        have hlen' : (((if nominalChunk log10 n w (j0 + 1) ≠ s.lastNominalChunk then
            s.m_chunkX ++ [binPosition log10 n (j0 + 1)] else s.m_chunkX).length : Nat) : Int) =
            (f : Int) + 1 +
              (nominalChunk log10 n w (j0 + 1) - nominalChunk log10 n w f) := by
          split_ifs with hne
          · rw [hL] at hne
            simp only [List.length_append, List.length_singleton, Nat.cast_add, Nat.cast_one]
            omega
          · rw [hL] at hne
            omega
        refine ⟨?_, ?_, ?_, ?_, ?_, ?_⟩
        · intro i a hi hT ha
          simp only at hT ⊢
          rw [hlen']
          rcases set_lookup _ (j0 + 1) i _ a hi hkn hT with ⟨h1, h2⟩ | ⟨_, h2⟩
          · have := ih.stored_lt i a h1 h2 ha
            omega
          · omega
        · intro c hc
          simp only at hc ⊢
          by_cases hcl : c < s.m_chunkX.length
          · obtain ⟨i, hi, hT⟩ := ih.stored_all c hcl
            exact ⟨i, by omega, by rw [List.getElem?_set_ne (by omega)]; exact hT⟩
          · refine ⟨j0 + 1, by omega, ?_⟩
            rw [List.getElem?_set_self hkn]
            have hc' : (c : Int) < (f : Int) + 1 +
                (nominalChunk log10 n w (j0 + 1) - nominalChunk log10 n w f) := by
              rw [← hlen']
              exact_mod_cast hc
            congr 1
            omega
        · intro hff
          simp [hf] at hff
        · intro h
          omega
        · intro j hj _
          have : j = j0 + 1 := by omega
          subst this
          rfl
        · intro _
          refine ⟨f, hf1, by omega, hfirst, hoff, hrep, ?_⟩
          intro j hj _
          have : j = j0 + 1 := by omega
          subst this
          exact hlen'
      · have hf' : s.foundMultiChunk = false := by simpa using hf
        simp only [hf', Bool.false_eq_true, if_false]
        have hk_len : s.m_chunkX.length = k :=
          ih.one_each hf' (fun i hi => hprev i hi hpk)
        have hstored_lt : ∀ (i : Nat) (a : Int), i < k + 1 →
            (s.m_binToChunk.set k (k : Int))[i]? = some a → a ≠ -1 →
            0 ≤ a ∧ a < ((s.m_chunkX ++ [binPosition log10 n k]).length : Int) := by
          intro i a hi hT ha
          simp only [List.length_append, List.length_singleton, Nat.cast_add, Nat.cast_one]
          rcases set_lookup _ k i _ a hi hkn hT with ⟨h1, h2⟩ | ⟨_, h2⟩
          · have := ih.stored_lt i a h1 h2 ha
            omega
          · omega
        have hstored_all : ∀ c : Nat, c < (s.m_chunkX ++ [binPosition log10 n k]).length →
            ∃ i : Nat, i < k + 1 ∧ (s.m_binToChunk.set k (k : Int))[i]? = some (c : Int) := by
          intro c hc
          simp only [List.length_append, List.length_singleton] at hc
          by_cases hcl : c < s.m_chunkX.length
          · obtain ⟨i, hi, hT⟩ := ih.stored_all c hcl
            exact ⟨i, by omega, by rw [List.getElem?_set_ne (by omega)]; exact hT⟩
          · refine ⟨k, by omega, ?_⟩
            rw [List.getElem?_set_self hkn]
            congr 2
            omega
        by_cases hl : nominalChunk log10 n w k = s.lastNominalChunk
        · simp only [hl, if_true]
          have hk0 : k ≠ 0 := by
            intro hk0
            subst hk0
            exact h0 (by rw [hl, ih.last_start rfl])
          obtain ⟨j0, rfl⟩ : ∃ j0, k = j0 + 1 := ⟨k - 1, by omega⟩
          have hL := ih.last_eq j0 rfl (hprev j0 (by omega) hpk)
          refine ⟨hstored_lt, hstored_all, ?_, ?_, ?_, ?_⟩
          · intro hff
            simp at hff
          · intro h
            omega
          · intro j hj _
            have : j = j0 + 1 := by omega
            subst this
            exact hl.symm
          · intro _
            refine ⟨j0 + 1, by omega, by omega, rfl, hl.symm, ?_, ?_⟩
            · rw [hl, hL]
              rfl
            · intro j hj _
              have : j = j0 + 1 := by omega
              subst this
              simp only [List.length_append, List.length_singleton, Nat.cast_add, Nat.cast_one,
                hk_len]
              omega
        · simp only [hl, if_false]
          refine ⟨hstored_lt, hstored_all, ?_, ?_, ?_, ?_⟩
          · intro _ _
            simp [hk_len]
          · intro h
            omega
          · intro j hj _
            have : j = k := by omega
            subst this
            rfl
          · intro hff
            simp [hf'] at hff

/-- The table the bin loop builds for a width `w ≥ 0` is non-decreasing on the bins that do
not hold the sentinel. -/
theorem remapLoop_binToChunk_le [FloorRing α] (log10 : α → α)
    (hmono : ∀ x y : α, 1 ≤ x → x ≤ y → log10 x ≤ log10 y) (n : Nat) (w : Int) (hw : 0 ≤ w)
    (i j : Nat) (a b : Int) (hij : i < j)
    (hi : (remapLoop log10 n w n).m_binToChunk[i]? = some a)
    (hj : (remapLoop log10 n w n).m_binToChunk[j]? = some b)
    (ha : a ≠ -1) (hb : b ≠ -1) : a ≤ b := by
  have hinv := remapLoop_inv log10 n w n le_rfl
  have hjn : j < n := by
    have := (List.getElem?_eq_some.mp hj).1
    rw [hinv.length_eq] at this
    exact this
  rw [hinv.entries i (by omega)] at hi
  rw [hinv.entries j hjn] at hj
  cases hi
  cases hj
  exact binEntry_mono log10 hmono _ w hw _ _ hinv hij ha hb

end Remap

/-! ## The real base-10 logarithm -/

section RealFacts

theorem logb_erbs20_pos : 0 < Real.logb 10 (0.00437 * 20 + 1) :=
  Real.logb_pos (by norm_num) (by norm_num)

theorem logb_erbs20_lt : Real.logb 10 (0.00437 * 20 + 1) < Real.logb 10 (0.00437 * 20000 + 1) :=
  Real.logb_lt_logb (by norm_num) (by norm_num) (by norm_num)

theorem logb_erbs20_pow : 53 * Real.logb 10 (0.00437 * 20 + 1) ≤
    Real.logb 10 (0.00437 * 20000 + 1) := by
  have h := Real.logb_pow 10 (0.00437 * 20 + 1 : ℝ) 53
  have h' : Real.logb 10 ((0.00437 * 20 + 1 : ℝ) ^ 53) ≤ Real.logb 10 (0.00437 * 20000 + 1) :=
    Real.logb_le_logb_of_le (by norm_num) (by positivity) (by norm_num)
  rw [h] at h'
  simpa using h'

theorem logb_bin1_pow_lower : Real.logb 10 (0.00437 * 20000 + 1) +
    51 * Real.logb 10 (0.00437 * 20 + 1) ≤
    52 * Real.logb 10 (0.00437 * (24000 * 1 / 513) + 1) := by
  have h1 := Real.logb_pow 10 (0.00437 * 20 + 1 : ℝ) 51
  have h2 := Real.logb_pow 10 (0.00437 * (24000 * 1 / 513) + 1 : ℝ) 52
  have h3 := Real.logb_mul (b := 10) (x := (0.00437 * 20000 + 1 : ℝ))
    (y := (0.00437 * 20 + 1 : ℝ) ^ 51) (by norm_num) (by norm_num)
  have h' : Real.logb 10 ((0.00437 * 20000 + 1 : ℝ) * (0.00437 * 20 + 1 : ℝ) ^ 51) ≤
      Real.logb 10 ((0.00437 * (24000 * 1 / 513) + 1 : ℝ) ^ 52) :=
    Real.logb_le_logb_of_le (by norm_num) (by positivity) (by norm_num)
  rw [h3, h1, h2] at h'
  simpa using h'

theorem logb_bin1_pow_upper : 52 * Real.logb 10 (0.00437 * (24000 * 1 / 513) + 1) <
    2 * Real.logb 10 (0.00437 * 20000 + 1) + 50 * Real.logb 10 (0.00437 * 20 + 1) := by
  have h1 := Real.logb_pow 10 (0.00437 * 20 + 1 : ℝ) 50
  have h2 := Real.logb_pow 10 (0.00437 * (24000 * 1 / 513) + 1 : ℝ) 52
  have h4 := Real.logb_pow 10 (0.00437 * 20000 + 1 : ℝ) 2
  have h3 := Real.logb_mul (b := 10) (x := (0.00437 * 20000 + 1 : ℝ) ^ 2)
    (y := (0.00437 * 20 + 1 : ℝ) ^ 50) (by norm_num) (by norm_num)
  have h' : Real.logb 10 ((0.00437 * (24000 * 1 / 513) + 1 : ℝ) ^ 52) <
      Real.logb 10 ((0.00437 * 20000 + 1 : ℝ) ^ 2 * (0.00437 * 20 + 1 : ℝ) ^ 50) :=
    Real.logb_lt_logb (by norm_num) (by positivity) (by norm_num)
  rw [h3, h1, h2, h4] at h'
  simpa using h'

theorem logb_erbs20_pow_lower : Real.logb 10 (0.00437 * 20000 + 1) <
    64 * Real.logb 10 (0.00437 * 20 + 1) := by
  have h := Real.logb_pow 10 (0.00437 * 20 + 1 : ℝ) 64
  have h' : Real.logb 10 (0.00437 * 20000 + 1) < Real.logb 10 ((0.00437 * 20 + 1 : ℝ) ^ 64) :=
    Real.logb_lt_logb (by norm_num) (by norm_num) (by norm_num)
  rw [h] at h'
  simpa using h'

theorem logb_midpoint : ∀ x y : ℝ, 1 ≤ x → 1 ≤ y →
    Real.logb 10 x + Real.logb 10 y ≤ 2 * Real.logb 10 ((x + y) / 2) := by
  intro x y hx hy
  have h1 := Real.logb_mul (b := 10) (x := x) (y := y) (by linarith) (by linarith)
  have h2 := Real.logb_pow 10 ((x + y) / 2) 2
  have h3 : Real.logb 10 (x * y) ≤ Real.logb 10 (((x + y) / 2) ^ 2) :=
    Real.logb_le_logb_of_le (by norm_num) (by nlinarith) (by nlinarith [sq_nonneg (x - y)])
  rw [h1, h2] at h3
  simpa using h3

theorem logb_monotoneOn : ∀ x y : ℝ, 1 ≤ x → x ≤ y → Real.logb 10 x ≤ Real.logb 10 y :=
  fun _ _ hx hxy => Real.logb_le_logb_of_le (by norm_num) (by linarith) hxy

theorem nominalChunk_real_zero : nominalChunk (Real.logb 10) 513 104 0 = -1 := by
  unfold nominalChunk binPosition position erbs fftBinToFrequency
  rw [Int.floor_eq_iff]
  have hA := logb_erbs20_pos
  have hB := logb_erbs20_lt
  have hP := logb_erbs20_pow
  simp only [Nat.cast_zero, mul_zero, zero_div, zero_add, Real.logb_one, Int.cast_neg,
    Int.cast_one, Int.cast_ofNat]
  generalize Real.logb 10 (0.00437 * 20 + 1) = A at hA hB hP ⊢
  generalize Real.logb 10 (0.00437 * 20000 + 1) = B at hB hP ⊢
  have hD : (0 : ℝ) < 21.4 * B - 21.4 * A := by linarith
  constructor
  · rw [div_mul_eq_mul_div, le_div_iff₀ (by norm_num), le_div_iff₀ hD]
    linarith
  · rw [div_mul_eq_mul_div, div_lt_iff₀ (by norm_num), div_lt_iff₀ hD]
    nlinarith

theorem binPosition_real_one_le : binPosition (Real.logb 10) 513 1 ≤ 1 := by
  unfold binPosition
  apply position_le_one (Real.logb 10)
    (fun x y hx hxy => Real.logb_le_logb_of_le (by norm_num) (by linarith) hxy)
  · exact fftBinToFrequency_nonneg 513 1
  · unfold fftBinToFrequency
    norm_num

theorem nominalChunk_real_one : nominalChunk (Real.logb 10) 513 104 1 = 1 := by
  unfold nominalChunk binPosition position erbs fftBinToFrequency
  rw [Int.floor_eq_iff]
  have hA := logb_erbs20_pos
  have hB := logb_erbs20_lt
  have hL := logb_bin1_pow_lower
  have hU := logb_bin1_pow_upper
  simp only [Nat.cast_one, Nat.cast_ofNat, Int.cast_one, Int.cast_ofNat]
  generalize Real.logb 10 (0.00437 * 20 + 1) = A at hA hB hL hU ⊢
  generalize Real.logb 10 (0.00437 * 20000 + 1) = B at hB hL hU ⊢
  generalize Real.logb 10 (0.00437 * (24000 * 1 / 513) + 1) = C at hL hU ⊢
  have hD : (0 : ℝ) < 21.4 * B - 21.4 * A := by linarith
  constructor
  · rw [div_mul_eq_mul_div, le_div_iff₀ (by norm_num), le_div_iff₀ hD]
    linarith
  · rw [div_mul_eq_mul_div, div_lt_iff₀ (by norm_num), div_lt_iff₀ hD]
    linarith

theorem nominalChunk_real_two_zero : nominalChunk (Real.logb 10) 2 640 0 ≤ -2 := by
  have hlt : nominalChunk (Real.logb 10) 2 640 0 < -1 := by
    unfold nominalChunk binPosition position erbs fftBinToFrequency
    rw [Int.floor_lt]
    have hA := logb_erbs20_pos
    have hB := logb_erbs20_lt
    have hP := logb_erbs20_pow_lower
    simp only [Nat.cast_zero, mul_zero, zero_div, zero_add, Real.logb_one, Int.cast_neg,
      Int.cast_one, Int.cast_ofNat]
    generalize Real.logb 10 (0.00437 * 20 + 1) = A at hA hB hP ⊢
    generalize Real.logb 10 (0.00437 * 20000 + 1) = B at hB hP ⊢
    have hD : (0 : ℝ) < 21.4 * B - 21.4 * A := by linarith
    rw [div_mul_eq_mul_div, div_lt_iff₀ (by norm_num), div_lt_iff₀ hD]
    linarith
  omega

theorem nominalChunk_real_two_one : 0 ≤ nominalChunk (Real.logb 10) 2 640 1 := by
  unfold nominalChunk
  apply Int.floor_nonneg.mpr
  have hp : 0 ≤ binPosition (Real.logb 10) 2 1 := by
    unfold binPosition
    apply position_nonneg (Real.logb 10) logb_monotoneOn
    unfold fftBinToFrequency
    norm_num
  have : (0 : ℝ) ≤ ((640 : Int) : ℝ) := by norm_num
  positivity

/-- The pipeline `impulsePipeline` over the reals: each of the two bins is its own chunk. -/
theorem impulsePipeline_real (maxDb : ℝ) :
    (impulsePipeline (Real.logb 10) maxDb).m_binToChunk = [0, 1] ∧
    (impulsePipeline (Real.logb 10) maxDb).m_numChunks = 2 ∧
    (impulsePipeline (Real.logb 10) maxDb).m_numPlotPoints = 8 ∧
    (impulsePipeline (Real.logb 10) maxDb).m_spectrumSize = 2 ∧
    (impulsePipeline (Real.logb 10) maxDb).m_magnitudeSpectrum = [0, 0] ∧
    (impulsePipeline (Real.logb 10) maxDb).m_maxDb = maxDb ∧
    (impulsePipeline (Real.logb 10) maxDb).m_samples = [1, 0] := by
  have h0 := nominalChunk_real_two_zero
  have h1 := nominalChunk_real_two_one
  obtain ⟨e1, e2⟩ := remapLoop_two_bins (Real.logb 10) logb_monotoneOn 640
    (by omega) (by omega)
  have e : (FFTAudioCallback.construct 4 maxDb [] 2).m_spectrumSize = 2 := rfl
  simp only [impulsePipeline, setWindowSize, e, e1, e2]
  simp [FFTAudioCallback.construct]

theorem decibels_impulse (i : Nat) :
    decibels (Real.logb 10) (fun x y => Real.sqrt (x ^ 2 + y ^ 2)) (dft2 [1, 0]) i = 0 := by
  rcases i with _ | _ | i <;> simp [decibels, dft2]

theorem doFFT_impulse_maxDb (maxDb maxDb0 : ℝ) :
    (doFFT (Real.logb 10) (fun x y => Real.sqrt (x ^ 2 + y ^ 2)) dft2
      (impulsePipeline (Real.logb 10) maxDb) maxDb0).m_maxDb = max maxDb (max maxDb0 0) := by
  obtain ⟨_, _, h3, h4, _, h6, h7⟩ := impulsePipeline_real maxDb
  rw [doFFT_maxDb_eq _ _ _ _ _ (by rw [h3]; decide), h4, h6, h7]
  simp [List.range_succ, decibels_impulse]

end RealFacts

/-! ## The perceptual mapping is monotone (C1) -/

/-- C1: after `setWindowSize(w, h)` with `w ≥ 0`, the bin-to-chunk table is non-decreasing on
the bins that are not the sentinel `-1`: for bins `i < j` holding `a` and `b`, both different
from `-1`, `a ≤ b`. Positions are exact values of an ordered field; `std::log10` is any
function that is non-decreasing on `[1, ∞)`. -/
theorem setWindowSize_binToChunk_nondecreasing {α : Type} [LinearOrderedField α] [FloorRing α]
    (log10 : α → α) (hmono : ∀ x y : α, 1 ≤ x → x ≤ y → log10 x ≤ log10 y)
    (st : FFTAudioCallback α) (w h : Int) (hw : 0 ≤ w) (i j : Nat) (a b : Int) (hij : i < j)
    (hi : (setWindowSize log10 st w h).m_binToChunk[i]? = some a)
    (hj : (setWindowSize log10 st w h).m_binToChunk[j]? = some b)
    (ha : a ≠ -1) (hb : b ≠ -1) : a ≤ b := by
  have hi' : (remapLoop log10 st.m_spectrumSize w st.m_spectrumSize).m_binToChunk[i]? =
      some a := hi
  have hj' : (remapLoop log10 st.m_spectrumSize w st.m_spectrumSize).m_binToChunk[j]? =
      some b := hj
  exact remapLoop_binToChunk_le log10 hmono st.m_spectrumSize w hw i j a b hij hi' hj' ha hb

/-- C1 on a concrete pipeline: buffer size 16 (9 bins), width 10, rational positions with
the identity in place of `std::log10`; bin 3 holds chunk 2 and bin 4 holds chunk 3. -/
theorem setWindowSize_binToChunk_nondecreasing_witness :
    ((setWindowSize (fun x : ℚ => x) (FFTAudioCallback.construct 4 0 [] 16) 10
        10).m_binToChunk[3]? = some 2 ∧
      (setWindowSize (fun x : ℚ => x) (FFTAudioCallback.construct 4 0 [] 16) 10
        10).m_binToChunk[4]? = some 3) ∧
    (2 : Int) ≤ 3 :=
  ⟨⟨by decide!, by decide!⟩,
    setWindowSize_binToChunk_nondecreasing (fun x : ℚ => x) (fun _ _ _ hxy => hxy)
      (FFTAudioCallback.construct 4 0 [] 16) 10 10 (by decide) 3 4 2 3 (by decide)
      (by decide!) (by decide!) (by decide) (by decide)⟩

/-- The statement of C1 for the real base-10 logarithm. -/
theorem binToChunk_nondecreasing_for_real_log10 (st : FFTAudioCallback ℝ) (w h : Int)
    (hw : 0 ≤ w) (i j : Nat) (a b : Int) (hij : i < j)
    (hi : (setWindowSize (Real.logb 10) st w h).m_binToChunk[i]? = some a)
    (hj : (setWindowSize (Real.logb 10) st w h).m_binToChunk[j]? = some b)
    (ha : a ≠ -1) (hb : b ≠ -1) : a ≤ b := by
  have hmono : ∀ x y : ℝ, 1 ≤ x → x ≤ y → Real.logb 10 x ≤ Real.logb 10 y :=
    fun x y hx hxy => Real.logb_le_logb_of_le (by norm_num) (by linarith) hxy
  exact remapLoop_binToChunk_le (Real.logb 10) hmono st.m_spectrumSize w hw i j a b hij hi hj
    ha hb

/-! ## Chunk indices and the number of chunks (C2) -/

/-- C2, evaluated at the failing input: buffer size 1024 (513 bins), display width 104, real
base-10 logarithm. Bin 0 has nominal chunk `-1`, the starting value of `lastNominalChunk`, so
it is taken for a repeated chunk; bin 0 is stored chunk 0, bin 1 chunk 2, and no bin is
stored chunk 1 although `numChunks ≥ 2`. -/
theorem setWindowSize_skips_chunk_one :
    (setWindowSize (Real.logb 10) (FFTAudioCallback.construct 4 0 [] 1024) 104
      480).m_binToChunk[0]? = some 0 ∧
    (setWindowSize (Real.logb 10) (FFTAudioCallback.construct 4 0 [] 1024) 104
      480).m_binToChunk[1]? = some 2 ∧
    2 ≤ (setWindowSize (Real.logb 10) (FFTAudioCallback.construct 4 0 [] 1024) 104
      480).m_numChunks ∧
    ∀ i : Nat, (setWindowSize (Real.logb 10) (FFTAudioCallback.construct 4 0 [] 1024) 104
      480).m_binToChunk[i]? ≠ some 1 := by
  have h := remapLoop_collision (Real.logb 10) logb_monotoneOn 513 104 (by decide) (by decide)
    nominalChunk_real_zero (by rw [nominalChunk_real_one]) binPosition_real_one_le
  rw [nominalChunk_real_one] at h
  have e : (FFTAudioCallback.construct 4 (0 : ℝ) [] 1024).m_spectrumSize = 513 := by
    show 1024 / 2 + 1 = 513
    norm_num
  simp only [setWindowSize, e]
  exact h

/-- The statement of C2 away from the failing widths: when the nominal chunk of bin 0 is
not `-1` (and `std::log10` is non-decreasing and midpoint-concave on `[1, ∞)`, `w ≥ 0`), the
chunk indices stored for the bins that do not hold the sentinel are exactly the indices
below `numChunks`. -/
theorem setWindowSize_chunks_exact_of_no_collision {α : Type} [LinearOrderedField α]
    [FloorRing α] (log10 : α → α)
    (hconc : ∀ x y : α, 1 ≤ x → 1 ≤ y → log10 x + log10 y ≤ 2 * log10 ((x + y) / 2))
    (hmono : ∀ x y : α, 1 ≤ x → x ≤ y → log10 x ≤ log10 y) (st : FFTAudioCallback α)
    (w h : Int) (hw : 0 ≤ w) (h0 : nominalChunk log10 st.m_spectrumSize w 0 ≠ -1) :
    (∀ (i : Nat) (a : Int), (setWindowSize log10 st w h).m_binToChunk[i]? = some a → a ≠ -1 →
      0 ≤ a ∧ a < ((setWindowSize log10 st w h).m_numChunks : Int)) ∧
    (∀ c : Nat, c < (setWindowSize log10 st w h).m_numChunks →
      ∃ i : Nat, (setWindowSize log10 st w h).m_binToChunk[i]? = some (c : Int)) := by
  have hinv := remapLoop_chunkInv log10 hconc hmono st.m_spectrumSize w hw h0
    st.m_spectrumSize le_rfl
  have hlen := (remapLoop_inv log10 st.m_spectrumSize w st.m_spectrumSize le_rfl).length_eq
  refine ⟨?_, ?_⟩
  · intro i a hi ha
    have hi' : (remapLoop log10 st.m_spectrumSize w st.m_spectrumSize).m_binToChunk[i]? =
        some a := hi
    have hin : i < st.m_spectrumSize := by
      have := (List.getElem?_eq_some.mp hi').1
      rw [hlen] at this
      exact this
    exact hinv.stored_lt i a hin hi' ha
  · intro c hc
    obtain ⟨i, _, hT⟩ := hinv.stored_all c hc
    exact ⟨i, hT⟩

/-- The statement of C2 for the real base-10 logarithm at the widths `w ≥ 0` at which the
nominal chunk of bin 0 is not `-1`. -/
theorem chunks_exact_for_real_log10 (st : FFTAudioCallback ℝ) (w h : Int) (hw : 0 ≤ w)
    (h0 : nominalChunk (Real.logb 10) st.m_spectrumSize w 0 ≠ -1) :
    (∀ (i : Nat) (a : Int),
      (setWindowSize (Real.logb 10) st w h).m_binToChunk[i]? = some a → a ≠ -1 →
      0 ≤ a ∧ a < ((setWindowSize (Real.logb 10) st w h).m_numChunks : Int)) ∧
    (∀ c : Nat, c < (setWindowSize (Real.logb 10) st w h).m_numChunks →
      ∃ i : Nat, (setWindowSize (Real.logb 10) st w h).m_binToChunk[i]? = some (c : Int)) :=
  setWindowSize_chunks_exact_of_no_collision (Real.logb 10) logb_midpoint logb_monotoneOn st w h
    hw h0

/-! ## The bound check of the aggregation loop (C3) -/

/-- C3, refuted at a concrete table: one chunk, bins 0 and 2 mapped to it and bin 1
holding `-1`, magnitudes 1, 2, 3. The loop leaves at bin 1 and the chunk holds 1;
skipping bin 1 would leave 3. -/
theorem aggregateLoop_leaves_at_out_of_bounds :
    aggregateLoop [0, -1, 0] [(1 : ℚ), 2, 3] [0, 1, 2] [0] = [1] ∧
    aggregateSkip [0, -1, 0] [(1 : ℚ), 2, 3] [0, 1, 2] [0] = [3] := by
  decide!

/-- C3, amended: in the aggregation loop of `doFFT`, a bin whose chunk index is negative or
`≥ |chunkY|` ends the loop: it and every bin after it contribute nothing, while every bin
before it is folded into its chunk by max. The result is the aggregation over the bins that
precede the first out-of-bounds bin, all of them in bounds; when no in-bounds bin comes after
an out-of-bounds bin, that is the aggregation over the in-bounds bins only. -/
theorem aggregateLoop_stops_at_first_out_of_bounds {α : Type} [LinearOrderedField α]
    (m_binToChunk : List Int) (m_magnitudeSpectrum : List α) (bins : List Nat)
    (m_chunkY : List α) :
    aggregateLoop m_binToChunk m_magnitudeSpectrum bins m_chunkY =
      aggregateSkip m_binToChunk m_magnitudeSpectrum
        (bins.takeWhile (chunkInBounds m_binToChunk m_chunkY.length)) m_chunkY ∧
    (∀ i ∈ bins.takeWhile (chunkInBounds m_binToChunk m_chunkY.length),
      0 ≤ m_binToChunk.getD i 0 ∧ m_binToChunk.getD i 0 < (m_chunkY.length : Int)) ∧
    (bins.Pairwise (fun i j => chunkInBounds m_binToChunk m_chunkY.length i = false →
        chunkInBounds m_binToChunk m_chunkY.length j = false) →
      aggregateLoop m_binToChunk m_magnitudeSpectrum bins m_chunkY =
        aggregateSkip m_binToChunk m_magnitudeSpectrum bins m_chunkY) := by
  refine ⟨aggregateLoop_eq_skip_takeWhile _ _ _ _, ?_,
    aggregateLoop_eq_skip_of_closed _ _ _ _⟩
  intro i hi
  have h := List.mem_takeWhile_imp hi
  have h' : ¬ (m_binToChunk.getD i 0 < 0 ∨ m_binToChunk.getD i 0 ≥ (m_chunkY.length : Int)) :=
    of_decide_eq_true h
  omega

/-- C3 (amended) on a table whose out-of-bounds bins come last: chunks 0, 1, then `-1`. -/
theorem aggregateLoop_stops_at_first_out_of_bounds_witness :
    aggregateLoop [0, 1, -1] [(1 : ℚ), 2, 3] [0, 1, 2] [0, 0] =
      aggregateSkip [0, 1, -1] [(1 : ℚ), 2, 3] [0, 1, 2] [0, 0] :=
  (aggregateLoop_stops_at_first_out_of_bounds [0, 1, -1] [(1 : ℚ), 2, 3] [0, 1, 2]
    [0, 0]).2.2 (by decide)

/-- After `setWindowSize` with a width `w ≥ 0`, the `break` of the aggregation loop loses
no bin: `doFFT` computes the aggregation over the in-bounds bins. -/
theorem doFFT_chunkY_after_setWindowSize {α : Type} [LinearOrderedField α] [FloorRing α]
    (log10 : α → α) (hmono : ∀ x y : α, 1 ≤ x → x ≤ y → log10 x ≤ log10 y)
    (hypot : α → α → α) (fftw_execute : List α → List (α × α)) (st : FFTAudioCallback α)
    (w h : Int) (hw : 0 ≤ w) (maxDb0 : α)
    (hne : (setWindowSize log10 st w h).m_numPlotPoints ≠ 0) :
    (doFFT log10 hypot fftw_execute (setWindowSize log10 st w h) maxDb0).m_chunkY =
      aggregateSkip (setWindowSize log10 st w h).m_binToChunk
        (doFFT log10 hypot fftw_execute (setWindowSize log10 st w h) maxDb0).m_magnitudeSpectrum
        (List.range st.m_spectrumSize)
        (List.replicate (setWindowSize log10 st w h).m_numChunks 0) := by
  have hcl := remapLoop_out_of_bounds_closed log10 hmono st.m_spectrumSize w hw
    (setWindowSize log10 st w h).m_numChunks
  have e : (setWindowSize log10 st w h).m_spectrumSize = st.m_spectrumSize := rfl
  simp only [doFFT, hne, if_false, e]
  apply aggregateLoop_eq_skip_of_closed
  simpa [setWindowSize] using hcl

/-! ## Chunk magnitudes (C4) -/

/-- C4, refuted at a concrete frame: the two-bin pipeline `impulsePipeline` with gain
ceiling 100, fed the impulse `1, 0` (both bins at 0 dB), `maxDb` starting at 0. Bin 0 is the
only bin of chunk 0 and its normalised magnitude is `(0 - 100) / 60 + 1 = -2/3`, yet
`chunkY[0]` is 0, the value `resize` gave it. -/
theorem doFFT_chunkY_not_bin_magnitude :
    ((impulsePipeline (Real.logb 10) (100 : ℝ)).m_binToChunk = [0, 1] ∧
      (impulsePipeline (Real.logb 10) (100 : ℝ)).m_numChunks = 2) ∧
    (doFFT (Real.logb 10) (fun x y => Real.sqrt (x ^ 2 + y ^ 2)) dft2
      (impulsePipeline (Real.logb 10) 100) 0).m_magnitudeSpectrum[(0 : Nat)]? = some (-2 / 3) ∧
    (doFFT (Real.logb 10) (fun x y => Real.sqrt (x ^ 2 + y ^ 2)) dft2
      (impulsePipeline (Real.logb 10) 100) 0).m_chunkY[(0 : Nat)]? = some 0 := by
  obtain ⟨h1, h2, h3, h4, h5, h6, h7⟩ := impulsePipeline_real 100
  have hne : (impulsePipeline (Real.logb 10) (100 : ℝ)).m_numPlotPoints ≠ 0 := by
    rw [h3]; decide
  have hm := doFFT_magnitudeSpectrum (Real.logb 10) (fun x y => Real.sqrt (x ^ 2 + y ^ 2)) dft2
    (impulsePipeline (Real.logb 10) 100) 0 hne (by rw [h5, h4]; rfl) 0 (by rw [h4]; decide)
  rw [doFFT_impulse_maxDb, h7, decibels_impulse] at hm
  have hm' : (doFFT (Real.logb 10) (fun x y => Real.sqrt (x ^ 2 + y ^ 2)) dft2
      (impulsePipeline (Real.logb 10) 100) 0).m_magnitudeSpectrum[(0 : Nat)]? = some (-2 / 3) := by
    rw [hm]
    norm_num
  refine ⟨⟨h1, h2⟩, hm', ?_⟩
  rw [doFFT_chunkY_getElem? _ _ _ _ _ hne (by
    intro i hi
    rw [h4] at hi
    rw [h1, h2]
    interval_cases i <;> decide) 0 (by rw [h2]; decide), h4, h1]
  simp [List.range_succ, List.filter_cons, List.getD_eq_getElem?_getD, hm']
  norm_num

/-- C4, amended: after a `doFFT` that passes its guard, when every bin maps to an in-bounds
chunk, the magnitude spectrum holds the normalised magnitudes `(db - m_maxDb) / 60 + 1` and
every chunk `c` holds the maximum of 0 (the value `resize` gives it) and the normalised
magnitudes of the bins mapped to `c`: `chunkY[c]` is at least 0 and at least each of these
magnitudes, and it is 0 or one of them; a chunk to which exactly one bin `i` maps holds
`max(0, normalised magnitude of i)`. -/
theorem doFFT_chunkY_is_clamped_max {α : Type} [LinearOrderedField α] (log10 : α → α)
    (hypot : α → α → α) (fftw_execute : List α → List (α × α)) (st : FFTAudioCallback α)
    (maxDb0 : α) (hne : st.m_numPlotPoints ≠ 0)
    (hlen : st.m_magnitudeSpectrum.length = st.m_spectrumSize)
    (hin : ∀ i, i < st.m_spectrumSize → chunkInBounds st.m_binToChunk st.m_numChunks i = true)
    (c : Nat) (hc : c < st.m_numChunks) :
    (∀ i, i < st.m_spectrumSize →
      (doFFT log10 hypot fftw_execute st maxDb0).m_magnitudeSpectrum[i]? =
        some ((decibels log10 hypot (doFFT log10 hypot fftw_execute st maxDb0).m_spectrum i -
          (doFFT log10 hypot fftw_execute st maxDb0).m_maxDb) / 60 + 1)) ∧
    ∃ y, (doFFT log10 hypot fftw_execute st maxDb0).m_chunkY[c]? = some y ∧ 0 ≤ y ∧
      (∀ i, i < st.m_spectrumSize → st.m_binToChunk.getD i 0 = (c : Int) →
        (doFFT log10 hypot fftw_execute st maxDb0).m_magnitudeSpectrum.getD i 0 ≤ y) ∧
      (y = 0 ∨ ∃ i, i < st.m_spectrumSize ∧ st.m_binToChunk.getD i 0 = (c : Int) ∧
        y = (doFFT log10 hypot fftw_execute st maxDb0).m_magnitudeSpectrum.getD i 0) ∧
      (∀ i, i < st.m_spectrumSize → st.m_binToChunk.getD i 0 = (c : Int) →
        (∀ j, j < st.m_spectrumSize → st.m_binToChunk.getD j 0 = (c : Int) → j = i) →
        y = max 0 ((doFFT log10 hypot fftw_execute st maxDb0).m_magnitudeSpectrum.getD i 0)) := by
  refine ⟨?_, ?_⟩
  · intro i hi
    rw [doFFT_spectrum log10 hypot fftw_execute st maxDb0 hne]
    exact doFFT_magnitudeSpectrum log10 hypot fftw_execute st maxDb0 hne hlen i hi
  · obtain ⟨s1, s2, s3⟩ := foldl_max_spec
      (fun i => (doFFT log10 hypot fftw_execute st maxDb0).m_magnitudeSpectrum.getD i 0)
      ((List.range st.m_spectrumSize).filter
        (fun i => decide (st.m_binToChunk.getD i 0 = (c : Int)))) 0
    have hmem : ∀ i, i ∈ (List.range st.m_spectrumSize).filter
        (fun i => decide (st.m_binToChunk.getD i 0 = (c : Int))) ↔
        i < st.m_spectrumSize ∧ st.m_binToChunk.getD i 0 = (c : Int) := by
      intro i
      rw [List.mem_filter, List.mem_range, decide_eq_true_iff]
    refine ⟨_, doFFT_chunkY_getElem? log10 hypot fftw_execute st maxDb0 hne hin c hc, s1, ?_,
      ?_, ?_⟩
    · intro i hi hb
      exact s2 i ((hmem i).mpr ⟨hi, hb⟩)
    · rcases s3 with h | ⟨i, hi, h⟩
      · exact Or.inl h
      · exact Or.inr ⟨i, ((hmem i).mp hi).1, ((hmem i).mp hi).2, h⟩
    · intro i hi hb huniq
      have hle := s2 i ((hmem i).mpr ⟨hi, hb⟩)
      rcases s3 with h | ⟨j, hj, h⟩
      · rw [h] at hle ⊢
        exact (max_eq_left hle).symm
      · have hji : j = i := huniq j ((hmem j).mp hj).1 ((hmem j).mp hj).2
        subst hji
        rw [h] at s1 ⊢
        exact (max_eq_right s1).symm

/-- C4 (amended) on a two-bin pipeline over the rationals in which each bin is its own
chunk. -/
theorem doFFT_chunkY_is_clamped_max_witness :
    ∃ y, (doFFT (fun x : ℚ => x) (fun x y => x + y) dft2
      { FFTAudioCallback.construct 4 0 [] 2 with
        m_numChunks := 2, m_numPlotPoints := 8, m_binToChunk := [0, 1] } 0).m_chunkY[1]? =
          some y ∧ 0 ≤ y :=
  have h := doFFT_chunkY_is_clamped_max (fun x : ℚ => x) (fun x y => x + y) dft2
    { FFTAudioCallback.construct 4 0 [] 2 with
      m_numChunks := 2, m_numPlotPoints := 8, m_binToChunk := [0, 1] } 0
    (by decide) (by decide) (by decide) 1 (by decide)
  h.2.imp (fun _ hy => ⟨hy.1, hy.2.1⟩)

/-! ## The gain ceiling (C5, C6) -/

/-- C5: the gain ceiling `m_maxDb` never decreases. Whatever the state, the spectrum the
transform produces and the value the local `maxDb` starts with, `m_maxDb` after `doFFT` is at
least its value before; so it is after any sequence of `doFFT`, `setWindowSize` and `process`
calls. -/
theorem maxDb_never_decreases {α : Type} [LinearOrderedField α] [FloorRing α]
    (log10 : α → α) (hypot : α → α → α) (fftw_execute : List α → List (α × α))
    (st : FFTAudioCallback α) (maxDb0 : α) (calls : List (Call α)) :
    st.m_maxDb ≤ (doFFT log10 hypot fftw_execute st maxDb0).m_maxDb ∧
    st.m_maxDb ≤ (runCalls log10 hypot fftw_execute st calls).m_maxDb := by
  refine ⟨doFFT_maxDb_ge log10 hypot fftw_execute st maxDb0, ?_⟩
  induction calls generalizing st with
  | nil => exact le_rfl
  | cons call rest ih =>
    cases call with
    | doFFT j =>
      exact le_trans (doFFT_maxDb_ge log10 hypot fftw_execute st j) (ih _)
    | setWindowSize w h =>
      exact ih (setWindowSize log10 st w h)
    | process input n junk =>
      exact le_trans (process_maxDb_ge log10 hypot fftw_execute st input n junk) (ih _)

/-- C6, evaluated at the failing input: the pipeline `impulsePipeline` with gain ceiling 0,
fed the impulse `1, 0`, so that both bins are at 0 dB, with the uninitialised local `maxDb`
holding 100. The ceiling becomes 100, not `max(0, 0) = 0`. -/
theorem doFFT_ceiling_takes_uninitialised_maxDb :
    (impulsePipeline (Real.logb 10) (0 : ℝ)).m_maxDb = 0 ∧
    decibels (Real.logb 10) (fun x y => Real.sqrt (x ^ 2 + y ^ 2))
      (dft2 (impulsePipeline (Real.logb 10) (0 : ℝ)).m_samples) 0 = 0 ∧
    decibels (Real.logb 10) (fun x y => Real.sqrt (x ^ 2 + y ^ 2))
      (dft2 (impulsePipeline (Real.logb 10) (0 : ℝ)).m_samples) 1 = 0 ∧
    (doFFT (Real.logb 10) (fun x y => Real.sqrt (x ^ 2 + y ^ 2)) dft2
      (impulsePipeline (Real.logb 10) 0) 100).m_maxDb = 100 := by
  obtain ⟨_, _, _, _, _, h6, h7⟩ := impulsePipeline_real 0
  refine ⟨h6, ?_, ?_, ?_⟩
  · rw [h7]; exact decibels_impulse 0
  · rw [h7]; exact decibels_impulse 1
  · rw [doFFT_impulse_maxDb]
    norm_num

/-! ## The curve smoother (C7, C8) -/

/-- C7: the smoother interpolates its control points. `cubicInterpolate(0, y0, y1, y2, y3)`
is `y1`; for a control sequence `ctrl` and `cubicResolution = R ≥ 1` the output sample at
index `s * R` is control value `s`, for every segment `s` below the number of control
values; so `plotX[s*R] = chunkX[s]` after `setWindowSize` and `plotY[s*R] = chunkY[s]` after
a `doFFT` that passes its guard (in a state where `numPlotPoints = numChunks * R`, as
`setWindowSize` leaves it). -/
theorem smoother_interpolates_control_points {α : Type} [LinearOrderedField α] [FloorRing α]
    (log10 : α → α) (hypot : α → α → α) (fftw_execute : List α → List (α × α))
    (st : FFTAudioCallback α) (w h : Int) (maxDb0 : α) (y0 y1 y2 y3 : α) (s : Nat)
    (hR : 1 ≤ st.m_cubicResolution) :
    cubicInterpolate 0 y0 y1 y2 y3 = y1 ∧
    (∀ ctrl : List α, s < ctrl.length →
      (smooth st.m_cubicResolution ctrl.length (ctrl.length * st.m_cubicResolution)
        ctrl)[s * st.m_cubicResolution]? = ctrl[s]?) ∧
    (s < (setWindowSize log10 st w h).m_numChunks →
      ∃ v, (setWindowSize log10 st w h).m_chunkX[s]? = some v ∧
        (setWindowSize log10 st w h).m_plotX[s * st.m_cubicResolution]? = some v) ∧
    (st.m_numPlotPoints ≠ 0 → st.m_numPlotPoints = st.m_numChunks * st.m_cubicResolution →
      s < st.m_numChunks →
      ∃ v, (doFFT log10 hypot fftw_execute st maxDb0).m_chunkY[s]? = some v ∧
        (doFFT log10 hypot fftw_execute st maxDb0).m_plotY[s * st.m_cubicResolution]? =
          some v) := by
  refine ⟨cubicInterpolate_zero y0 y1 y2 y3, ?_, ?_, ?_⟩
  · intro ctrl hs
    exact smooth_at_control st.m_cubicResolution ctrl s hR hs
  · intro hs
    simp only [setWindowSize] at hs ⊢
    refine ⟨_, List.getElem?_eq_getElem hs, ?_⟩
    rw [smooth_at_control st.m_cubicResolution _ s hR hs]
    exact List.getElem?_eq_getElem hs
  · intro hne hinv hs
    have hlen := doFFT_chunkY_length log10 hypot fftw_execute st maxDb0 hne
    have hs' : s < (doFFT log10 hypot fftw_execute st maxDb0).m_chunkY.length := by omega
    refine ⟨_, List.getElem?_eq_getElem hs', ?_⟩
    rw [doFFT_plotY log10 hypot fftw_execute st maxDb0 hne, hinv, ← hlen,
      smooth_at_control st.m_cubicResolution _ s hR hs']
    exact List.getElem?_eq_getElem hs'

/-- C7 on a concrete pipeline over the rationals, buffer size 2 and `cubicResolution = 4`,
each bin its own chunk: after `doFFT`, `plotY[4]` is `chunkY[1]`. -/
theorem smoother_interpolates_control_points_witness :
    ∃ v, (doFFT (fun x : ℚ => x) (fun x y => x + y) dft2
        { FFTAudioCallback.construct 4 0 [] 2 with
          m_numChunks := 2, m_numPlotPoints := 8, m_binToChunk := [0, 1] } 0).m_chunkY[1]? =
          some v ∧
      (doFFT (fun x : ℚ => x) (fun x y => x + y) dft2
        { FFTAudioCallback.construct 4 0 [] 2 with
          m_numChunks := 2, m_numPlotPoints := 8, m_binToChunk := [0, 1] } 0).m_plotY[1 * 4]? =
          some v :=
  (smoother_interpolates_control_points (fun x : ℚ => x) (fun x y => x + y) dft2
    { FFTAudioCallback.construct 4 0 [] 2 with
      m_numChunks := 2, m_numPlotPoints := 8, m_binToChunk := [0, 1] } 10 10 0 1 2 3 4 1
    (by decide)).2.2.2 (by decide) (by decide) (by decide)

/-- C8: the smoothing loops read no control point out of bounds. For `M ≥ 1` chunks,
`cubicResolution = R ≥ 1` and an output index `k < M * R`, the indices `t1 = k div R`,
`t0 = max(t1-1, 0)`, `t2 = min(t1+1, M-1)`, `t3 = min(t1+2, M-1)` all lie in `[0, M-1]`; and
the sequence read has exactly `numChunks` entries when the loop runs: `chunkX` in
`setWindowSize` (where `numPlotPoints = numChunks * R`), `chunkY` in a `doFFT` that passes
its guard. -/
theorem smoothing_reads_in_bounds {α : Type} [LinearOrderedField α] [FloorRing α]
    (log10 : α → α) (hypot : α → α → α) (fftw_execute : List α → List (α × α))
    (st : FFTAudioCallback α) (w h : Int) (maxDb0 : α) (M R k : Nat) (hM : 1 ≤ M)
    (hR : 1 ≤ R) (hk : k < M * R) :
    ((smoothIndices R M k).2.1 = ((k / R : Nat) : Int) ∧
      (smoothIndices R M k).1 = max ((smoothIndices R M k).2.1 - 1) 0 ∧
      (smoothIndices R M k).2.2.1 = min ((smoothIndices R M k).2.1 + 1) ((M : Int) - 1) ∧
      (smoothIndices R M k).2.2.2 = min ((smoothIndices R M k).2.1 + 2) ((M : Int) - 1)) ∧
    ((0 ≤ (smoothIndices R M k).1 ∧ (smoothIndices R M k).1 ≤ (M : Int) - 1) ∧
      (0 ≤ (smoothIndices R M k).2.1 ∧ (smoothIndices R M k).2.1 ≤ (M : Int) - 1) ∧
      (0 ≤ (smoothIndices R M k).2.2.1 ∧ (smoothIndices R M k).2.2.1 ≤ (M : Int) - 1) ∧
      (0 ≤ (smoothIndices R M k).2.2.2 ∧ (smoothIndices R M k).2.2.2 ≤ (M : Int) - 1)) ∧
    ((setWindowSize log10 st w h).m_chunkX.length = (setWindowSize log10 st w h).m_numChunks ∧
      (setWindowSize log10 st w h).m_numPlotPoints =
        (setWindowSize log10 st w h).m_numChunks *
          (setWindowSize log10 st w h).m_cubicResolution) ∧
    (st.m_numPlotPoints ≠ 0 →
      (doFFT log10 hypot fftw_execute st maxDb0).m_chunkY.length =
        (doFFT log10 hypot fftw_execute st maxDb0).m_numChunks) := by
  obtain ⟨h1, h2⟩ := smoothIndices_bounds R M k hM hR hk
  refine ⟨⟨h1, rfl, rfl, rfl⟩, h2, ⟨rfl, rfl⟩, ?_⟩
  intro hne
  rw [doFFT_chunkY_length log10 hypot fftw_execute st maxDb0 hne,
    (doFFT_sizes log10 hypot fftw_execute st maxDb0).1]

/-- C8 at `M = 3`, `R = 4`, `k = 11`, the last output index: the indices are `1, 2, 2, 2`. -/
theorem smoothing_reads_in_bounds_witness :
    smoothIndices 4 3 11 = (1, 2, 2, 2) ∧
    (0 ≤ (smoothIndices 4 3 11).2.2.2 ∧ (smoothIndices 4 3 11).2.2.2 ≤ ((3 : Nat) : Int) - 1) :=
  ⟨by decide, (smoothing_reads_in_bounds (fun x : ℚ => x) (fun x y => x + y) (fun _ => [])
    (FFTAudioCallback.construct 4 0 [] 16) 10 10 0 3 4 11 (by decide) (by decide)
    (by decide)).2.1.2.2.2⟩

/-! ## The sample accumulator (C9) -/

/-- C9: `process` on a buffer of capacity `N ≥ 1` with the write cursor at `c < N` and
`n` incoming samples. The cursor finishes at `(c + n) mod N`, below `N`. Iteration `i < n`
writes sample `i` at position `(c + i) mod N` and advances the cursor; if that position was
`N - 1` it then invokes `doFFT` once, on the state just written, and resets the cursor to 0,
and otherwise it leaves the state as written, without a `doFFT`. The iterations that invoke
`doFFT` number `(c + n) div N`. The record of events `processTraced` keeps lists the same
writes and calls in order, and the sample buffer is what the writes leave. -/
theorem process_fills_windows {α : Type} [LinearOrderedField α] (log10 : α → α)
    (hypot : α → α → α) (fftw_execute : List α → List (α × α)) (st : FFTAudioCallback α)
    (input : Nat → α) (n : Nat) (junk : Nat → α) (hN : 1 ≤ st.m_bufferSize)
    (hc : st.m_writePos < st.m_bufferSize) :
    ((process log10 hypot fftw_execute st input n junk).m_writePos =
        (st.m_writePos + n) % st.m_bufferSize ∧
      (process log10 hypot fftw_execute st input n junk).m_writePos <
        (process log10 hypot fftw_execute st input n junk).m_bufferSize) ∧
    (process log10 hypot fftw_execute st input 0 junk = st ∧
      ∀ i : Nat, i < n →
        process log10 hypot fftw_execute st input (i + 1) junk =
          if (st.m_writePos + i) % st.m_bufferSize + 1 = st.m_bufferSize then
            { doFFT log10 hypot fftw_execute
                { process log10 hypot fftw_execute st input i junk with
                  m_samples :=
                    (process log10 hypot fftw_execute st input i junk).m_samples.set
                      ((st.m_writePos + i) % st.m_bufferSize) (input i)
                  m_writePos := (st.m_writePos + i) % st.m_bufferSize + 1 } (junk i) with
              m_writePos := 0 }
          else
            { process log10 hypot fftw_execute st input i junk with
              m_samples :=
                (process log10 hypot fftw_execute st input i junk).m_samples.set
                  ((st.m_writePos + i) % st.m_bufferSize) (input i)
              m_writePos := (st.m_writePos + i) % st.m_bufferSize + 1 }) ∧
    (List.range n).countP
        (fun i => decide ((st.m_writePos + i) % st.m_bufferSize + 1 = st.m_bufferSize)) =
      (st.m_writePos + n) / st.m_bufferSize ∧
    (processTraced log10 hypot fftw_execute st input n junk).2 =
      ((List.range n).map (fun i =>
        if (st.m_writePos + i) % st.m_bufferSize + 1 = st.m_bufferSize then
          [Event.write ((st.m_writePos + i) % st.m_bufferSize) (input i), Event.windowComplete]
        else [Event.write ((st.m_writePos + i) % st.m_bufferSize) (input i)])).flatten ∧
    (processTraced log10 hypot fftw_execute st input n junk).2.filter
        (fun e => !e.isWindowComplete) =
      (List.range n).map (fun i => Event.write ((st.m_writePos + i) % st.m_bufferSize)
        (input i)) ∧
    (processTraced log10 hypot fftw_execute st input n junk).2.countP Event.isWindowComplete =
      (st.m_writePos + n) / st.m_bufferSize ∧
    (process log10 hypot fftw_execute st input n junk).m_samples =
      replayWrites st.m_samples (processTraced log10 hypot fftw_execute st input n junk).2 := by
  obtain ⟨h1, h2, h3, h4, h5, h6⟩ :=
    processTraced_inv log10 hypot fftw_execute st input junk hN hc n
  refine ⟨⟨h2, ?_⟩, ⟨rfl, ?_⟩, window_count st.m_writePos st.m_bufferSize hN hc n, h3, h5, h4,
    h6⟩
  · unfold process
    rw [h1, h2]
    exact Nat.mod_lt _ (by omega)
  · intro i _
    exact process_succ log10 hypot fftw_execute st input junk hN hc i

/-- C9 on a pipeline over the rationals of buffer size 4 (three bins) after
`setWindowSize(2000, 480)`, with the cursor at 3, fed the six samples 1, ..., 6; the
transform is stood for by the samples themselves with imaginary part 0, `std::log10` by the
identity and `std::hypot` by the sum. `doFFT` is no no-op here. The final cursor is
`(3 + 6) mod 4 = 1` after `(3 + 6) div 4 = 2` calls of `doFFT`; the second call ran on the
buffer 2, 3, 4, 5, which it left in `m_spectrum`, and raised the gain ceiling to 80. -/
theorem process_fills_windows_witness :
    (setWindowSize (fun x : ℚ => x) (FFTAudioCallback.construct 4 0 [] 4) 2000
      480).m_numPlotPoints = 12 ∧
    ((process (fun x : ℚ => x) (fun x y => x + y) (fun l => l.map (fun x => (x, 0)))
      { setWindowSize (fun x : ℚ => x) (FFTAudioCallback.construct 4 0 [] 4) 2000 480 with
        m_writePos := 3 } (fun i => (i : ℚ) + 1) 6 (fun _ => 0)).m_writePos = 1 ∧
    (List.range 6).countP (fun i => decide ((3 + i) % 4 + 1 = 4)) = 2) ∧
    (process (fun x : ℚ => x) (fun x y => x + y) (fun l => l.map (fun x => (x, 0)))
      { setWindowSize (fun x : ℚ => x) (FFTAudioCallback.construct 4 0 [] 4) 2000 480 with
        m_writePos := 3 } (fun i => (i : ℚ) + 1) 6 (fun _ => 0)).m_spectrum =
      [(2, 0), (3, 0), (4, 0), (5, 0)] ∧
    (process (fun x : ℚ => x) (fun x y => x + y) (fun l => l.map (fun x => (x, 0)))
      { setWindowSize (fun x : ℚ => x) (FFTAudioCallback.construct 4 0 [] 4) 2000 480 with
        m_writePos := 3 } (fun i => (i : ℚ) + 1) 6 (fun _ => 0)).m_maxDb = 80 ∧
    (process (fun x : ℚ => x) (fun x y => x + y) (fun l => l.map (fun x => (x, 0)))
      { setWindowSize (fun x : ℚ => x) (FFTAudioCallback.construct 4 0 [] 4) 2000 480 with
        m_writePos := 3 } (fun i => (i : ℚ) + 1) 6 (fun _ => 0)).m_samples = [6, 3, 4, 5] :=
  have h := process_fills_windows (fun x : ℚ => x) (fun x y => x + y)
    (fun l => l.map (fun x => (x, 0)))
    { setWindowSize (fun x : ℚ => x) (FFTAudioCallback.construct 4 0 [] 4) 2000 480 with
      m_writePos := 3 } (fun i => (i : ℚ) + 1) 6 (fun _ => 0) (by decide) (by decide)
  ⟨by decide!, ⟨h.1.1, h.2.2.1⟩, by decide!, by decide!, by decide!⟩

/-! ## Zero display width (C10) -/

/-- C10, refuted at buffer size 1024 (513 bins): after `setWindowSize(0, 480)` there are two
chunks and eight plot points, so `doFFT` does not return at its guard. -/
theorem setWindowSize_zero_width_has_chunks :
    (setWindowSize (Real.logb 10) (FFTAudioCallback.construct 4 0 [] 1024) 0 480).m_numChunks
      = 2 ∧
    (setWindowSize (Real.logb 10) (FFTAudioCallback.construct 4 0 [] 1024) 0
      480).m_numPlotPoints = 8 := by
  have e : (FFTAudioCallback.construct 4 (0 : ℝ) [] 1024).m_spectrumSize = 513 := by
    show 1024 / 2 + 1 = 513
    norm_num
  have h := remapLoop_zero_width_length (Real.logb 10) logb_monotoneOn 513
  simp only [setWindowSize, e, h]
  exact ⟨rfl, rfl⟩

/-- C10, amended: `doFFT` is a no-op, returning the state unchanged, whenever
`numPlotPoints = 0` at its guard. A zero display width does not bring that about: after
`setWindowSize(0, h)` there are `min(spectrumSize, 2)` chunks and that many times
`cubicResolution` plot points (`std::log10` being non-decreasing on `[1, ∞)`), so the guard
fires after it only when the spectrum size or `cubicResolution` is 0. -/
theorem doFFT_noop_only_without_plot_points {α : Type} [LinearOrderedField α] [FloorRing α]
    (log10 : α → α) (hmono : ∀ x y : α, 1 ≤ x → x ≤ y → log10 x ≤ log10 y)
    (hypot : α → α → α) (fftw_execute : List α → List (α × α)) (st : FFTAudioCallback α)
    (h : Int) (maxDb0 : α) :
    (st.m_numPlotPoints = 0 → doFFT log10 hypot fftw_execute st maxDb0 = st) ∧
    (setWindowSize log10 st 0 h).m_numChunks = min st.m_spectrumSize 2 ∧
    (setWindowSize log10 st 0 h).m_numPlotPoints =
      min st.m_spectrumSize 2 * st.m_cubicResolution ∧
    ((setWindowSize log10 st 0 h).m_numPlotPoints = 0 →
      doFFT log10 hypot fftw_execute (setWindowSize log10 st 0 h) maxDb0 =
        setWindowSize log10 st 0 h) := by
  have hl := remapLoop_zero_width_length log10 hmono st.m_spectrumSize
  refine ⟨doFFT_noop log10 hypot fftw_execute st maxDb0, ?_, ?_,
    doFFT_noop log10 hypot fftw_execute _ maxDb0⟩
  · simp only [setWindowSize, hl]
  · simp only [setWindowSize, hl]

/-- C10 (amended) on a pipeline of buffer size 16 over the rationals, with the identity in
place of `std::log10`: two chunks at width 0. -/
theorem doFFT_noop_only_without_plot_points_witness :
    (setWindowSize (fun x : ℚ => x) (FFTAudioCallback.construct 4 0 [] 16) 0 10).m_numChunks =
      min 9 2 :=
  (doFFT_noop_only_without_plot_points (fun x : ℚ => x) (fun _ _ _ hxy => hxy)
    (fun x y => x + y) (fun _ => []) (FFTAudioCallback.construct 4 0 [] 16) 10 0).2.1

end NiceScope
